import Mathlib

/- Verification of the log-analyzer core subsystems: the chunk splitter,
   the section parser with its list-item extractor, the deterministic
   similarity fallback, and the exact-line matcher.  JavaScript strings are
   embedded as lists of characters; string helpers mirror the JavaScript
   semantics used by the source (split on line feed, trim, toLowerCase,
   includes, the specific regular expressions). -/

set_option maxRecDepth 20000

/- Character classes. jsWhitespace models the JavaScript whitespace class
   used by trim and the regex class written as backslash-s. -/
def jsWhitespace (c : Char) : Bool :=
  c == ' ' || c == '\t' || c == '\n' || c == '\r' || c == '\x0b' || c == '\x0c' ||
  c == '\u00A0' || c == '\u1680' || c == '\u2000' || c == '\u2001' || c == '\u2002' ||
  c == '\u2003' || c == '\u2004' || c == '\u2005' || c == '\u2006' || c == '\u2007' ||
  c == '\u2008' || c == '\u2009' || c == '\u200A' || c == '\u2028' || c == '\u2029' ||
  c == '\u202F' || c == '\u205F' || c == '\u3000' || c == '\uFEFF'

/- Line terminators, the characters the regex dot does not match. -/
def isLineTerm (c : Char) : Bool :=
  c == '\n' || c == '\r' || c == '\u2028' || c == '\u2029'

/- JavaScript String.prototype.trim on a character list. -/
def jsTrim (s : List Char) : List Char :=
  ((s.dropWhile jsWhitespace).reverse.dropWhile jsWhitespace).reverse

/- JavaScript text.split with separator a line feed: always at least one field. -/
def splitNl : List Char → List (List Char)
  | [] => [[]]
  | c :: rest =>
    if c == '\n' then [] :: splitNl rest
    else
      match splitNl rest with
      | [] => [[c]]
      | l :: ls => (c :: l) :: ls

/- JavaScript array.join with a line feed. -/
def joinNl : List (List Char) → List Char
  | [] => []
  | [l] => l
  | l :: ls => l ++ '\n' :: joinNl ls

theorem splitNl_ne_nil (s : List Char) : splitNl s ≠ [] := by
  match s with
  | [] => simp [splitNl]
  | c :: rest =>
    unfold splitNl
    by_cases h : c == '\n'
    · simp [h]
    · simp only [h, Bool.false_eq_true, if_false]
      cases splitNl rest <;> simp

theorem joinNl_cons (l : List Char) (ls : List (List Char)) (h : ls ≠ []) :
    joinNl (l :: ls) = l ++ '\n' :: joinNl ls := by
  cases ls with
  | nil => exact absurd rfl h
  | cons a as => rfl

theorem joinNl_splitNl (s : List Char) : joinNl (splitNl s) = s := by
  induction s with
  | nil => rfl
  | cons c rest ih =>
    unfold splitNl
    by_cases h : c == '\n'
    · have hc : c = '\n' := by exact beq_iff_eq.mp h
      simp only [h, if_true]
      rw [joinNl_cons [] (splitNl rest) (splitNl_ne_nil rest), ih, hc]
      rfl
    · simp only [h, Bool.false_eq_true, if_false]
      have hne := splitNl_ne_nil rest
      cases hsp : splitNl rest with
      | nil => exact absurd hsp hne
      | cons l ls =>
        rw [hsp] at ih
        cases ls with
        | nil => simpa [joinNl] using congrArg (c :: ·) ih
        | cons b bs =>
          rw [joinNl_cons (c :: l) (b :: bs) (by simp), ← ih,
            joinNl_cons l (b :: bs) (by simp)]
          rfl

theorem joinNl_append (xs ys : List (List Char)) (hx : xs ≠ []) (hy : ys ≠ []) :
    joinNl (xs ++ ys) = joinNl xs ++ '\n' :: joinNl ys := by
  induction xs with
  | nil => exact absurd rfl hx
  | cons a as ih =>
    cases as with
    | nil =>
      rw [List.singleton_append, joinNl_cons a ys hy]
      rfl
    | cons b bs =>
      rw [List.cons_append, joinNl_cons a ((b :: bs) ++ ys) (by simp),
        joinNl_cons a (b :: bs) (by simp), ih (by simp), List.append_assoc]
      rfl

/- Data model: a chunk descriptor as produced by splitIntoChunks, whose
   lineRange end field is called stop here because end is a Lean keyword. -/
structure LineRange where
  start : Nat
  stop : Nat
deriving DecidableEq, Repr

structure ChunkDescriptor where
  content : List Char
  lineRange : LineRange
deriving DecidableEq, Repr

/- The source constants CHUNK_SIZE and MAX_LINES_PER_CHUNK. -/
def CHUNK_SIZE : Nat := 500 * 1024

def MAX_LINES_PER_CHUNK : Nat := 5000

/- Total size of a group of lines, each line counted as its length plus one
   for the newline, exactly as the splitter accumulates currentSize. -/
def sizeLines (ls : List (List Char)) : Nat := (ls.map (fun l => l.length + 1)).sum

/- The loop of splitIntoChunks.  Arguments: remaining lines, the current
   0-indexed position i, currentChunk, currentSize, chunkStartLine, and the
   accumulated chunks.  S and L generalize CHUNK_SIZE and
   MAX_LINES_PER_CHUNK. -/
def splitIntoChunksGo (S L : Nat) :
    List (List Char) → Nat → List (List Char) → Nat → Nat → List ChunkDescriptor →
    List ChunkDescriptor
  | [], i, currentChunk, _, chunkStartLine, chunks =>
    if 0 < currentChunk.length then
      chunks ++ [⟨joinNl currentChunk, ⟨chunkStartLine + 1, i⟩⟩]
    else chunks
  | line :: rest, i, currentChunk, currentSize, chunkStartLine, chunks =>
    if (S < currentSize + (line.length + 1) ∨ L ≤ currentChunk.length) ∧
        0 < currentChunk.length then
      splitIntoChunksGo S L rest (i + 1) [line] (line.length + 1) i
        (chunks ++ [⟨joinNl currentChunk, ⟨chunkStartLine + 1, i⟩⟩])
    else
      splitIntoChunksGo S L rest (i + 1) (currentChunk ++ [line])
        (currentSize + (line.length + 1)) chunkStartLine chunks

def splitIntoChunks (S L : Nat) (lines : List (List Char)) : List ChunkDescriptor :=
  splitIntoChunksGo S L lines 0 [] 0 0 []

/- rangesOk chunks lo hi: the line ranges tile the interval lo..hi exactly,
   in order, each range nonempty.  rangesOk chunks 1 total therefore says the
   ranges are 1-indexed, contiguous, non-overlapping and cover every line. -/
def rangesOk : List ChunkDescriptor → Nat → Nat → Bool
  | [], lo, hi => lo == hi + 1
  | c :: rest, lo, hi =>
    (c.lineRange.start == lo) && (decide (lo ≤ c.lineRange.stop)) &&
      (decide (c.lineRange.stop ≤ hi)) && rangesOk rest (c.lineRange.stop + 1) hi

theorem rangesOk_nil_iff (lo hi : Nat) : rangesOk [] lo hi = true ↔ lo = hi + 1 := by
  simp [rangesOk]

theorem rangesOk_cons_iff (c : ChunkDescriptor) (rest : List ChunkDescriptor)
    (lo hi : Nat) :
    rangesOk (c :: rest) lo hi = true ↔
      c.lineRange.start = lo ∧ lo ≤ c.lineRange.stop ∧ c.lineRange.stop ≤ hi ∧
        rangesOk rest (c.lineRange.stop + 1) hi = true := by
  simp [rangesOk, and_assoc]

theorem splitIntoChunksGo_spec (S L : Nat) :
    ∀ (rem cc : List (List Char)) (cs sl : Nat) (chunks : List ChunkDescriptor),
    cc ≠ [] →
    ∃ newChunks : List ChunkDescriptor,
      splitIntoChunksGo S L rem (sl + cc.length) cc cs sl chunks = chunks ++ newChunks ∧
      newChunks ≠ [] ∧
      joinNl (newChunks.map (fun c => c.content)) = joinNl (cc ++ rem) ∧
      rangesOk newChunks (sl + 1) (sl + cc.length + rem.length) = true := by
  intro rem
  induction rem with
  | nil =>
    intro cc cs sl chunks hcc
    refine ⟨[⟨joinNl cc, ⟨sl + 1, sl + cc.length⟩⟩], ?_, by simp, ?_, ?_⟩
    · unfold splitIntoChunksGo
      rw [if_pos (List.length_pos.mpr hcc)]
    · simp [joinNl]
    · have h1 : 1 ≤ cc.length := List.length_pos.mpr hcc
      rw [List.length_nil, Nat.add_zero, rangesOk_cons_iff, rangesOk_nil_iff]
      refine ⟨rfl, ?_, ?_, ?_⟩
      · show sl + 1 ≤ sl + cc.length
        omega
      · show sl + cc.length ≤ sl + cc.length
        omega
      · show sl + cc.length + 1 = sl + cc.length + 1
        rfl
  | cons line rest ih =>
    intro cc cs sl chunks hcc
    unfold splitIntoChunksGo
    by_cases hcond : (S < cs + (line.length + 1) ∨ L ≤ cc.length) ∧ 0 < cc.length
    · rw [if_pos hcond]
      obtain ⟨nc, heq, hne, hjoin, hrg⟩ :=
        ih [line] (line.length + 1) (sl + cc.length)
          (chunks ++ [⟨joinNl cc, ⟨sl + 1, sl + cc.length⟩⟩]) (by simp)
      simp only [List.length_singleton] at heq hrg
      refine ⟨⟨joinNl cc, ⟨sl + 1, sl + cc.length⟩⟩ :: nc, ?_, by simp, ?_, ?_⟩
      · rw [heq, List.append_assoc]
        rfl
      · rw [List.map_cons, joinNl_cons _ _ (by simpa using hne), hjoin,
          joinNl_append cc (line :: rest) hcc (by simp)]
        rfl
      · have h1 : 1 ≤ cc.length := List.length_pos.mpr hcc
        have hlen : sl + cc.length + (line :: rest).length =
            sl + cc.length + 1 + rest.length := by
          simp only [List.length_cons]
          omega
        rw [hlen, rangesOk_cons_iff]
        refine ⟨rfl, ?_, ?_, ?_⟩
        · show sl + 1 ≤ sl + cc.length
          omega
        · show sl + cc.length ≤ sl + cc.length + 1 + rest.length
          omega
        · show rangesOk nc (sl + cc.length + 1) (sl + cc.length + 1 + rest.length) = true
          exact hrg
    · rw [if_neg hcond]
      obtain ⟨nc, heq, hne, hjoin, hrg⟩ :=
        ih (cc ++ [line]) (cs + (line.length + 1)) sl chunks (by simp)
      simp only [List.length_append, List.length_singleton] at heq hrg
      have harr : sl + cc.length + 1 = sl + (cc.length + 1) := by omega
      rw [harr]
      refine ⟨nc, heq, hne, ?_, ?_⟩
      · rw [hjoin, List.append_assoc]
        rfl
      · have hlen : sl + cc.length + (line :: rest).length =
            sl + (cc.length + 1) + rest.length := by
          simp only [List.length_cons]
          omega
        rw [hlen]
        exact hrg

/-- C1: for every input text and positive thresholds S and L, splitting the
text on line feed and running the chunk splitter, then rejoining the emitted
chunk contents with line feed, reproduces the text exactly; and the emitted
line ranges are 1-indexed, contiguous, non-overlapping and cover every line
of the input exactly once (rangesOk over the interval 1..lineCount). -/
theorem splitIntoChunks_exactness (S L : Nat) (hS : 0 < S) (hL : 0 < L)
    (text : List Char) :
    joinNl ((splitIntoChunks S L (splitNl text)).map (fun c => c.content)) = text ∧
    rangesOk (splitIntoChunks S L (splitNl text)) 1 (splitNl text).length = true := by
  have _ := hS
  have _ := hL
  obtain ⟨l, rest, hsplit⟩ := List.exists_cons_of_ne_nil (splitNl_ne_nil text)
  unfold splitIntoChunks
  rw [hsplit]
  unfold splitIntoChunksGo
  rw [if_neg (by simp)]
  simp only [Nat.zero_add, List.nil_append]
  obtain ⟨nc, heq, _, hjoin, hrg⟩ :=
    splitIntoChunksGo_spec S L rest [l] (l.length + 1) 0 [] (by simp)
  simp only [Nat.zero_add, List.length_singleton, List.nil_append] at heq hrg
  rw [heq]
  constructor
  · rw [hjoin, List.singleton_append, ← hsplit, joinNl_splitNl]
  · have hlen : (l :: rest).length = 1 + rest.length := by
      simp only [List.length_cons]
      omega
    rw [hlen]
    exact hrg

theorem splitIntoChunks_exactness_witness :
    joinNl ((splitIntoChunks 7 2 (splitNl ("ab\ncd\nef".data))).map
      (fun c => c.content)) = "ab\ncd\nef".data ∧
    rangesOk (splitIntoChunks 7 2 (splitNl ("ab\ncd\nef".data))) 1
      (splitNl ("ab\ncd\nef".data)).length = true :=
  splitIntoChunks_exactness 7 2 (by decide) (by decide) ("ab\ncd\nef".data)

/-- C4 counterexample: at the source's own positive thresholds, the chunk
splitter applied to the line-split of the empty text yields one chunk (with
empty content and range 1..1), not zero chunks, because splitting the empty
string on line feed yields one empty line. -/
theorem splitIntoChunks_empty_counterexample :
    0 < CHUNK_SIZE ∧ 0 < MAX_LINES_PER_CHUNK ∧
    splitIntoChunks CHUNK_SIZE MAX_LINES_PER_CHUNK (splitNl ("".data)) ≠ [] := by
  refine ⟨by decide, by decide, ?_⟩
  decide

/-- C4 amended: the chunk splitter yields zero chunks exactly on an empty
list of lines; the line-split of the empty text is one empty line and yields
a single chunk with empty content and line range 1..1, for all thresholds. -/
theorem splitIntoChunks_empty_amended (S L : Nat) :
    splitIntoChunks S L [] = [] ∧
    splitIntoChunks S L (splitNl ("".data)) = [⟨[], ⟨1, 1⟩⟩] := by
  constructor
  · rfl
  · show splitIntoChunksGo S L [[]] 0 [] 0 0 [] = [⟨[], ⟨1, 1⟩⟩]
    unfold splitIntoChunksGo
    rw [if_neg (by simp)]
    rfl

/- Number of lines covered by a chunk, read off its inclusive line range. -/
def numLines (c : ChunkDescriptor) : Nat := c.lineRange.stop + 1 - c.lineRange.start

theorem sizeLines_eq (cc : List (List Char)) (h : cc ≠ []) :
    sizeLines cc = (joinNl cc).length + 1 := by
  induction cc with
  | nil => exact absurd rfl h
  | cons a as ih =>
    cases as with
    | nil => simp [sizeLines, joinNl]
    | cons b bs =>
      rw [joinNl_cons a (b :: bs) (by simp)]
      have := ih (by simp)
      simp only [sizeLines, List.map_cons, List.sum_cons] at this ⊢
      simp only [List.length_append, List.length_cons]
      omega

theorem splitIntoChunksGo_bound (S L : Nat) (hL : 0 < L) :
    ∀ (rem cc : List (List Char)) (cs sl : Nat) (chunks : List ChunkDescriptor),
    cc ≠ [] → cs = sizeLines cc → cc.length ≤ L → (cs ≤ S ∨ cc.length = 1) →
    (∀ c ∈ chunks, numLines c ≤ L ∧ (c.content.length + 1 ≤ S ∨ numLines c = 1)) →
    ∀ c ∈ splitIntoChunksGo S L rem (sl + cc.length) cc cs sl chunks,
      numLines c ≤ L ∧ (c.content.length + 1 ≤ S ∨ numLines c = 1) := by
  intro rem
  induction rem with
  | nil =>
    intro cc cs sl chunks hcc hcs hlen hsz hprev
    unfold splitIntoChunksGo
    rw [if_pos (List.length_pos.mpr hcc)]
    intro c hc
    rcases List.mem_append.mp hc with h | h
    · exact hprev c h
    · have hceq : c = ⟨joinNl cc, ⟨sl + 1, sl + cc.length⟩⟩ := by simpa using h
      have h1 : 1 ≤ cc.length := List.length_pos.mpr hcc
      have hnl : numLines c = cc.length := by
        rw [hceq]
        show sl + cc.length + 1 - (sl + 1) = cc.length
        omega
      refine ⟨by rw [hnl]; exact hlen, ?_⟩
      have hclen : c.content.length + 1 = cs := by
        rw [hceq, hcs, sizeLines_eq cc hcc]
      rcases hsz with h | h
      · exact Or.inl (by omega)
      · exact Or.inr (by rw [hnl, h])
  | cons line rest ih =>
    intro cc cs sl chunks hcc hcs hlen hsz hprev
    unfold splitIntoChunksGo
    by_cases hcond : (S < cs + (line.length + 1) ∨ L ≤ cc.length) ∧ 0 < cc.length
    · rw [if_pos hcond]
      have hgood : ∀ c ∈ chunks ++ [(⟨joinNl cc, ⟨sl + 1, sl + cc.length⟩⟩ :
          ChunkDescriptor)],
          numLines c ≤ L ∧ (c.content.length + 1 ≤ S ∨ numLines c = 1) := by
        intro c hc
        rcases List.mem_append.mp hc with h | h
        · exact hprev c h
        · have hceq : c = ⟨joinNl cc, ⟨sl + 1, sl + cc.length⟩⟩ := by simpa using h
          have h1 : 1 ≤ cc.length := List.length_pos.mpr hcc
          have hnl : numLines c = cc.length := by
            rw [hceq]
            show sl + cc.length + 1 - (sl + 1) = cc.length
            omega
          refine ⟨by rw [hnl]; exact hlen, ?_⟩
          have hclen : c.content.length + 1 = cs := by
            rw [hceq, hcs, sizeLines_eq cc hcc]
          rcases hsz with h | h
          · exact Or.inl (by omega)
          · exact Or.inr (by rw [hnl, h])
      have hrec := ih [line] (line.length + 1) (sl + cc.length) _ (by simp)
        (by simp [sizeLines]) (by simpa using hL) (Or.inr (by simp)) hgood
      simp only [List.length_singleton] at hrec
      exact hrec
    · rw [if_neg hcond]
      have hpos : 0 < cc.length := List.length_pos.mpr hcc
      have hni : ¬(S < cs + (line.length + 1) ∨ L ≤ cc.length) := fun h => hcond ⟨h, hpos⟩
      push_neg at hni
      have hrec := ih (cc ++ [line]) (cs + (line.length + 1)) sl chunks (by simp)
        (by rw [hcs]; simp [sizeLines])
        (by simp only [List.length_append, List.length_singleton]; omega)
        (Or.inl hni.1) hprev
      simp only [List.length_append, List.length_singleton] at hrec
      have harr : sl + (cc.length + 1) = sl + cc.length + 1 := by omega
      rw [harr] at hrec
      exact hrec

/-- C7: for every input text and positive thresholds S and L, every emitted
chunk spans at most L lines, and its size in the splitter's own measure
(each line counted as its length plus one, which equals content length plus
one) is at most S, except that a chunk forced by a single oversized line
still forms its own single-line chunk. -/
theorem splitIntoChunks_bound (S L : Nat) (hS : 0 < S) (hL : 0 < L)
    (text : List Char) :
    ∀ c ∈ splitIntoChunks S L (splitNl text),
      numLines c ≤ L ∧ (c.content.length + 1 ≤ S ∨ numLines c = 1) := by
  have _ := hS
  obtain ⟨l, rest, hsplit⟩ := List.exists_cons_of_ne_nil (splitNl_ne_nil text)
  unfold splitIntoChunks
  rw [hsplit]
  unfold splitIntoChunksGo
  rw [if_neg (by simp)]
  simp only [Nat.zero_add, List.nil_append]
  have hrec := splitIntoChunksGo_bound S L hL rest [l] (l.length + 1) 0 [] (by simp)
    (by simp [sizeLines]) (by simpa using hL) (Or.inr (by simp)) (by simp)
  simp only [Nat.zero_add, List.length_singleton] at hrec
  exact hrec

theorem splitIntoChunks_bound_witness :
    numLines (⟨"longline".data, ⟨4, 4⟩⟩ : ChunkDescriptor) ≤ 2 ∧
    ((⟨"longline".data, ⟨4, 4⟩⟩ : ChunkDescriptor).content.length + 1 ≤ 7 ∨
      numLines (⟨"longline".data, ⟨4, 4⟩⟩ : ChunkDescriptor) = 1) :=
  splitIntoChunks_bound 7 2 (by decide) (by decide) ("ab\ncd\nef\nlongline".data)
    ⟨"longline".data, ⟨4, 4⟩⟩ (by decide)

/- ASCII case mapping, as applied by the source's toLowerCase calls on the
   alphabets that matter here (keywords, headings, phrases). -/
def jsToLower (c : Char) : Char :=
  if 65 ≤ c.toNat ∧ c.toNat ≤ 90 then Char.ofNat (c.toNat + 32) else c

def lowerL (s : List Char) : List Char := s.map jsToLower

/- String.prototype.startsWith and String.prototype.includes, pattern first. -/
def listStartsWith : List Char → List Char → Bool
  | [], _ => true
  | _ :: _, [] => false
  | p :: ps, c :: cs => p == c && listStartsWith ps cs

def listIncludes (pat : List Char) : List Char → Bool
  | [] => listStartsWith pat []
  | c :: rest => listStartsWith pat (c :: rest) || listIncludes pat rest

/- The regex tail written backslash-s star followed by a one-or-more-dots
   capture group: greedy whitespace with backtracking, then the maximal run
   of non-line-terminator characters.  capTryAt tries the whitespace length
   k first and backtracks downward, exactly as the regex engine does. -/
def capTryAt (r : List Char) : Nat → Option (List Char)
  | 0 =>
    match r with
    | [] => none
    | c :: _ =>
      if isLineTerm c then none
      else some (r.takeWhile (fun c => !(isLineTerm c)))
  | k + 1 =>
    match (r.drop (k + 1)).head? with
    | some c =>
      if isLineTerm c then capTryAt r k
      else some ((r.drop (k + 1)).takeWhile (fun c => !(isLineTerm c)))
    | none => capTryAt r k

def capAfterWs (r : List Char) : Option (List Char) :=
  capTryAt r (r.takeWhile jsWhitespace).length

/- The bullet-item regex: a dash, star or bullet character, whitespace, then
   a nonempty capture. -/
def bulletMatch (t : List Char) : Option (List Char) :=
  match t with
  | c :: rest =>
    if c == '-' || c == '*' || c == '•' then capAfterWs rest else none
  | [] => none

/- The numbered-item regex: one or more digits, a dot or closing parenthesis,
   whitespace, then a nonempty capture. -/
def numberedMatch (t : List Char) : Option (List Char) :=
  let ds := t.takeWhile Char.isDigit
  if ds = [] then none
  else
    match t.drop ds.length with
    | c :: rest => if c == '.' || c == ')' then capAfterWs rest else none
    | [] => none

/- The bold-header regex: two stars, a lazy nonempty capture of
   non-terminators, two stars, optional colons and whitespace, then the rest
   of the line as second capture. -/
def boldScan (acc : List Char) : List Char → Option (List Char × List Char)
  | [] => none
  | c :: cs =>
    if isLineTerm c then none
    else if listStartsWith ['*', '*'] cs then some (acc ++ [c], cs.drop 2)
    else boldScan (acc ++ [c]) cs

def boldMatch (t : List Char) : Option (List Char × List Char) :=
  match t with
  | '*' :: '*' :: rest =>
    match boldScan [] rest with
    | some (cap1, after) =>
      let afterSep := after.dropWhile (fun c => c == ':' || jsWhitespace c)
      some (cap1, afterSep.takeWhile (fun c => !(isLineTerm c)))
    | none => none
  | _ => none

/- The line loop of extractListItems: builds currentItem and flushes it
   (trimmed) on blank lines, new list markers, and at the end. -/
def extractLoop : List (List Char) → List Char → List (List Char) → List (List Char)
  | [], current, items =>
    if current = [] then items else items ++ [jsTrim current]
  | line :: rest, current, items =>
    let trimmed := jsTrim line
    if trimmed = [] then
      extractLoop rest [] (if current = [] then items else items ++ [jsTrim current])
    else
      match bulletMatch trimmed with
      | some cap =>
        extractLoop rest cap
          (if current = [] then items else items ++ [jsTrim current])
      | none =>
        match numberedMatch trimmed with
        | some cap =>
          extractLoop rest cap
            (if current = [] then items else items ++ [jsTrim current])
        | none =>
          match boldMatch trimmed with
          | some (b1, b2) =>
            extractLoop rest
              (if b2 = [] then b1
               else ('*' :: '*' :: b1) ++ ('*' :: '*' :: ':' :: ' ' :: b2))
              (if current = [] then items else items ++ [jsTrim current])
          | none =>
            if ¬current = [] ∧
                (listStartsWith [' ', ' '] line || listStartsWith ['\t'] line) = true then
              extractLoop rest (current ++ ' ' :: trimmed) items
            else if current = [] ∧ ¬trimmed = [] ∧
                ¬listStartsWith ['#'] trimmed = true then
              extractLoop rest trimmed items
            else
              extractLoop rest current items

/- The wholly-bracketed regex: an opening bracket, one or more
   non-terminators, a closing bracket, spanning the whole item. -/
def whollyBracketed (item : List Char) : Bool :=
  match item with
  | '[' :: rest =>
    match rest.reverse with
    | ']' :: midRev => !(midRev = []) && midRev.all (fun c => !(isLineTerm c))
    | _ => false
  | _ => false

/- The final placeholder filter of extractListItems. -/
def keepItem (item : List Char) : Bool :=
  !(item = []) &&
  !(listIncludes ("[List".data) item) &&
  !(listIncludes ("list here".data) (lowerL item)) &&
  !(whollyBracketed item) &&
  !(listIncludes ("none found".data) (lowerL item)) &&
  !(listIncludes ("no patterns".data) (lowerL item)) &&
  !(listIncludes ("no anomalies".data) (lowerL item)) &&
  !(listIncludes ("no root causes".data) (lowerL item))

def extractListItems (text : List Char) : List (List Char) :=
  (extractLoop (splitNl text) [] []).filter keepItem

/-- C5 counterexample: the final filter drops an item that merely CONTAINS
the phrase none found without being equal to it: the single raw item of this
section text is "status: none found yet", which is not case-insensitively
equal to any negative-result phrase, yet the filtered result is empty. -/
theorem extractListItems_negphrase_counterexample :
    extractLoop (splitNl ("- status: none found yet".data)) [] [] =
      ["status: none found yet".data] ∧
    extractListItems ("- status: none found yet".data) = [] ∧
    lowerL ("status: none found yet".data) ≠ "none found".data ∧
    lowerL ("status: none found yet".data) ≠ "no patterns".data ∧
    lowerL ("status: none found yet".data) ≠ "no anomalies".data ∧
    lowerL ("status: none found yet".data) ≠ "no root causes".data := by
  refine ⟨by decide, by decide, by decide, by decide, by decide, by decide⟩

/-- C5 amended: the final filter of extractListItems removes exactly the
empty items, items containing the literal marker [List, items containing the
case-insensitive phrase list here, wholly bracketed items, and items whose
lowercased text CONTAINS (as a substring, not only when equal to) one of the
negative-result phrases none found, no patterns, no anomalies, no root
causes; every other flushed item is kept. -/
theorem extractListItems_filter_spec (text item : List Char) :
    item ∈ extractListItems text ↔
      item ∈ extractLoop (splitNl text) [] [] ∧
      item ≠ [] ∧
      listIncludes ("[List".data) item = false ∧
      listIncludes ("list here".data) (lowerL item) = false ∧
      whollyBracketed item = false ∧
      listIncludes ("none found".data) (lowerL item) = false ∧
      listIncludes ("no patterns".data) (lowerL item) = false ∧
      listIncludes ("no anomalies".data) (lowerL item) = false ∧
      listIncludes ("no root causes".data) (lowerL item) = false := by
  unfold extractListItems
  rw [List.mem_filter]
  refine and_congr_right fun _ => ?_
  simp only [keepItem, Bool.and_eq_true, Bool.not_eq_true', decide_eq_false_iff_not,
    and_assoc]

/- Data model shared by the analyzer results. -/
structure LogAnalysisResult where
  patterns : List (List Char)
  anomalies : List (List Char)
  rootCauses : List (List Char)
  summary : List Char
deriving DecidableEq, Repr

structure FileAnalysisResult where
  filename : List Char
  fileSize : Nat
  analysis : LogAnalysisResult
deriving DecidableEq, Repr

inductive LineCategory
  | error
  | warning
  | info
  | debug
  | other
deriving DecidableEq, Repr

structure FileOccurrence where
  filename : List Char
  lineNumbers : List Nat
deriving DecidableEq, Repr

structure ExactLineMatch where
  line : List Char
  occurrences : List FileOccurrence
  category : LineCategory
  totalCount : Nat
deriving DecidableEq, Repr

structure SimilarityResult where
  sharedPatterns : List (List Char)
  sharedAnomalies : List (List Char)
  sharedRootCauses : List (List Char)
  correlations : List (List Char)
  exactMatches : Option (List ExactLineMatch)
deriving DecidableEq, Repr

/- A JavaScript Map of counts: keys in insertion order, set increments in
   place and appends new keys at the end. -/
def bumpCount : List (List Char × Nat) → List Char → List (List Char × Nat)
  | [], k => [(k, 1)]
  | e :: rest, k =>
    if e.1 = k then (e.1, e.2 + 1) :: rest else e :: bumpCount rest k

/- One counting pass of findSimilaritiesManually over one of the three list
   fields: every item of every file bumps the count of its lowercased key. -/
def countAll (get : FileAnalysisResult → List (List Char))
    (frs : List FileAnalysisResult) : List (List Char × Nat) :=
  frs.foldl (fun m fr => (get fr).foldl (fun m p => bumpCount m (lowerL p)) m) []

/- The deterministic similarity fallback: keep keys whose count reaches the
   fixed threshold 2; correlations always empty; no exactMatches field set. -/
def findSimilaritiesManually (fileResults : List FileAnalysisResult) : SimilarityResult :=
  let patternCounts := countAll (fun fr => fr.analysis.patterns) fileResults
  let anomalyCounts := countAll (fun fr => fr.analysis.anomalies) fileResults
  let rootCauseCounts := countAll (fun fr => fr.analysis.rootCauses) fileResults
  { sharedPatterns := (patternCounts.filter (fun e => 2 ≤ e.2)).map (fun e => e.1)
    sharedAnomalies := (anomalyCounts.filter (fun e => 2 ≤ e.2)).map (fun e => e.1)
    sharedRootCauses := (rootCauseCounts.filter (fun e => 2 ≤ e.2)).map (fun e => e.1)
    correlations := []
    exactMatches := none }

/-- C6: the fallback counts total occurrences of a lowercased item across all
lists, not the number of distinct files containing it: a single file listing
the same pattern twice in different letter case reaches the threshold alone,
contradicting the stated appears-in-at-least-2-files semantics (which the
source code itself asserts in the comment on its threshold constant). -/
theorem findSimilaritiesManually_single_file_bug :
    findSimilaritiesManually
      [⟨"a.log".data, 10, ⟨["ERROR X".data, "error x".data], [], [], []⟩⟩,
       ⟨"b.log".data, 5, ⟨[], [], [], []⟩⟩] =
    ⟨["error x".data], [], [], [], none⟩ := by
  decide

theorem toNat_ofNat_of_isValidChar (n : Nat) (h : n.isValidChar) :
    (Char.ofNat n).toNat = n := by
  rw [Char.ofNat, dif_pos h]
  simp [Char.ofNatAux, Char.toNat, UInt32.toNat, BitVec.toNat_ofNatLt]

theorem jsToLower_not_upper (c : Char) :
    ¬(65 ≤ (jsToLower c).toNat ∧ (jsToLower c).toNat ≤ 90) := by
  unfold jsToLower
  by_cases h : 65 ≤ c.toNat ∧ c.toNat ≤ 90
  · rw [if_pos h, toNat_ofNat_of_isValidChar _ (Or.inl (by omega))]
    omega
  · rw [if_neg h]
    omega

theorem bumpCount_fst (k x : List Char) :
    ∀ (m : List (List Char × Nat)),
    x ∈ (bumpCount m k).map Prod.fst → x ∈ m.map Prod.fst ∨ x = k := by
  intro m
  induction m with
  | nil =>
    intro h
    right
    simpa [bumpCount] using h
  | cons e rest ih =>
    intro h
    unfold bumpCount at h
    by_cases he : e.1 = k
    · rw [if_pos he] at h
      rcases List.mem_map.mp h with ⟨y, hy, hyx⟩
      rcases List.mem_cons.mp hy with h1 | h1
      · left
        exact List.mem_map.mpr ⟨e, List.mem_cons_self _ _, by rw [← hyx, h1]⟩
      · left
        exact List.mem_map.mpr ⟨y, List.mem_cons_of_mem _ h1, hyx⟩
    · rw [if_neg he] at h
      rcases List.mem_map.mp h with ⟨y, hy, hyx⟩
      rcases List.mem_cons.mp hy with h1 | h1
      · left
        exact List.mem_map.mpr ⟨y, by rw [h1]; exact List.mem_cons_self _ _, hyx⟩
      · rcases ih (List.mem_map.mpr ⟨y, h1, hyx⟩) with h2 | h2
        · left
          rcases List.mem_map.mp h2 with ⟨z, hz, hzx⟩
          exact List.mem_map.mpr ⟨z, List.mem_cons_of_mem _ hz, hzx⟩
        · right
          exact h2

theorem itemsFold_fst (x : List Char) :
    ∀ (ps : List (List Char)) (m : List (List Char × Nat)),
    x ∈ (ps.foldl (fun m p => bumpCount m (lowerL p)) m).map Prod.fst →
    x ∈ m.map Prod.fst ∨ ∃ p ∈ ps, x = lowerL p := by
  intro ps
  induction ps with
  | nil =>
    intro m h
    exact Or.inl h
  | cons p ps ih =>
    intro m h
    rw [List.foldl_cons] at h
    rcases ih (bumpCount m (lowerL p)) h with h1 | h1
    · rcases bumpCount_fst (lowerL p) x m h1 with h2 | h2
      · exact Or.inl h2
      · exact Or.inr ⟨p, List.mem_cons_self _ _, h2⟩
    · rcases h1 with ⟨q, hq, hx⟩
      exact Or.inr ⟨q, List.mem_cons_of_mem _ hq, hx⟩

theorem countAll_fst (get : FileAnalysisResult → List (List Char)) (x : List Char) :
    ∀ (frs : List FileAnalysisResult),
    x ∈ (countAll get frs).map Prod.fst →
    ∃ fr ∈ frs, ∃ p ∈ get fr, x = lowerL p := by
  have main : ∀ (frs : List FileAnalysisResult) (m : List (List Char × Nat)),
      x ∈ (frs.foldl (fun m fr =>
        (get fr).foldl (fun m p => bumpCount m (lowerL p)) m) m).map Prod.fst →
      x ∈ m.map Prod.fst ∨ ∃ fr ∈ frs, ∃ p ∈ get fr, x = lowerL p := by
    intro frs
    induction frs with
    | nil =>
      intro m h
      exact Or.inl h
    | cons fr frs ih =>
      intro m h
      rw [List.foldl_cons] at h
      rcases ih _ h with h1 | h1
      · rcases itemsFold_fst x (get fr) m h1 with h2 | h2
        · exact Or.inl h2
        · rcases h2 with ⟨p, hp, hx⟩
          exact Or.inr ⟨fr, List.mem_cons_self _ _, p, hp, hx⟩
      · rcases h1 with ⟨fr2, hfr, hrest⟩
        exact Or.inr ⟨fr2, List.mem_cons_of_mem _ hfr, hrest⟩
  intro frs h
  rcases main frs [] h with h1 | h1
  · simp at h1
  · exact h1

theorem filterMap_fst_sub (l : List (List Char × Nat)) (x : List Char)
    (h : x ∈ ((l.filter (fun e => 2 ≤ e.2)).map (fun e => e.1))) :
    x ∈ l.map Prod.fst := by
  rcases List.mem_map.mp h with ⟨y, hy, hyx⟩
  exact List.mem_map.mpr ⟨y, (List.mem_filter.mp hy).1, hyx⟩

/-- C10 (implicit): every string the fallback returns in sharedPatterns,
sharedAnomalies or sharedRootCauses is the lowercased normalization key of
some item of some input file, never the original item text; in particular no
returned string contains an ASCII uppercase character even when every source
item was uppercase. -/
theorem findSimilaritiesManually_lowercased (frs : List FileAnalysisResult)
    (s : List Char)
    (h : s ∈ (findSimilaritiesManually frs).sharedPatterns ∨
         s ∈ (findSimilaritiesManually frs).sharedAnomalies ∨
         s ∈ (findSimilaritiesManually frs).sharedRootCauses) :
    (∃ fr ∈ frs, ∃ p ∈ fr.analysis.patterns ++ fr.analysis.anomalies ++
        fr.analysis.rootCauses, s = lowerL p) ∧
    ∀ c ∈ s, ¬(65 ≤ c.toNat ∧ c.toNat ≤ 90) := by
  have origin : ∃ fr ∈ frs, ∃ p ∈ fr.analysis.patterns ++ fr.analysis.anomalies ++
      fr.analysis.rootCauses, s = lowerL p := by
    rcases h with h | h | h
    · obtain ⟨fr, hfr, p, hp, hx⟩ :=
        countAll_fst (fun fr => fr.analysis.patterns) s frs (filterMap_fst_sub _ _ h)
      exact ⟨fr, hfr, p, by simp [hp], hx⟩
    · obtain ⟨fr, hfr, p, hp, hx⟩ :=
        countAll_fst (fun fr => fr.analysis.anomalies) s frs (filterMap_fst_sub _ _ h)
      exact ⟨fr, hfr, p, by simp [hp], hx⟩
    · obtain ⟨fr, hfr, p, hp, hx⟩ :=
        countAll_fst (fun fr => fr.analysis.rootCauses) s frs (filterMap_fst_sub _ _ h)
      exact ⟨fr, hfr, p, by simp [hp], hx⟩
  refine ⟨origin, ?_⟩
  obtain ⟨fr, _, p, _, hx⟩ := origin
  intro c hc
  rw [hx] at hc
  rcases List.mem_map.mp hc with ⟨c0, _, hc0⟩
  rw [← hc0]
  exact jsToLower_not_upper c0

theorem findSimilaritiesManually_lowercased_witness :
    (∃ fr ∈ [(⟨"a.log".data, 3, ⟨["ERROR".data], [], [], []⟩⟩ : FileAnalysisResult),
        ⟨"b.log".data, 4, ⟨["ERROR".data], [], [], []⟩⟩],
      ∃ p ∈ fr.analysis.patterns ++ fr.analysis.anomalies ++ fr.analysis.rootCauses,
        "error".data = lowerL p) ∧
    ∀ c ∈ "error".data, ¬(65 ≤ c.toNat ∧ c.toNat ≤ 90) :=
  findSimilaritiesManually_lowercased
    [⟨"a.log".data, 3, ⟨["ERROR".data], [], [], []⟩⟩,
     ⟨"b.log".data, 4, ⟨["ERROR".data], [], [], []⟩⟩]
    ("error".data) (Or.inl (by decide))

/- The section parser.  The four section regexes share the shape: two hash
   marks, whitespace, a case-insensitive keyword with singular/plural
   tolerance, whitespace, an optional line feed, then a lazy capture stopped
   by a lookahead for a line feed followed by two hash marks or end of
   input; the summary regex instead captures to the very end of the input. -/
inductive SectionName
  | patterns
  | anomalies
  | rootCauses
  | summary
deriving DecidableEq, Repr

/- Case-insensitive literal matching (the regex i flag on ASCII letters). -/
def dropCi : List Char → List Char → Option (List Char)
  | [], s => some s
  | _ :: _, [] => none
  | l :: ls, c :: cs => if jsToLower c = jsToLower l then dropCi ls cs else none

/- The keyword part of each heading regex: PATTERNS? — ANOMAL(Y|IES) —
   ROOT backslash-s star CAUSES? — SUMMARY. -/
def matchKw : SectionName → List Char → Option (List Char)
  | .patterns, s =>
    match dropCi ['P', 'A', 'T', 'T', 'E', 'R', 'N'] s with
    | some r =>
      match r with
      | c :: rest => if jsToLower c = 's' then some rest else some r
      | [] => some r
    | none => none
  | .anomalies, s =>
    match dropCi ['A', 'N', 'O', 'M', 'A', 'L'] s with
    | some r =>
      match r with
      | c :: _ =>
        if jsToLower c = 'y' then some r.tail else dropCi ['I', 'E', 'S'] r
      | [] => none
    | none => none
  | .rootCauses, s =>
    match dropCi ['R', 'O', 'O', 'T'] s with
    | some r =>
      match dropCi ['C', 'A', 'U', 'S', 'E'] (r.dropWhile jsWhitespace) with
      | some r2 =>
        match r2 with
        | c :: rest => if jsToLower c = 's' then some rest else some r2
        | [] => some r2
      | none => none
    | none => none
  | .summary, s => dropCi ['S', 'U', 'M', 'M', 'A', 'R', 'Y'] s

/- After the keyword: greedy whitespace then an optional line feed (the
   latter can never fire after the greedy whitespace, mirroring the regex). -/
def afterKw (s : List Char) : List Char :=
  match s.dropWhile jsWhitespace with
  | c :: r => if c = '\n' then r else c :: r
  | [] => []

/- The capture lookahead: a line feed followed by two hash marks. -/
def nlHashHash : List Char → Bool
  | c1 :: c2 :: c3 :: _ => (c1 == '\n') && (c2 == '#') && (c3 == '#')
  | _ => false

/- Lazy capture: the shortest prefix whose stop position satisfies the
   lookahead or is the end of input. -/
def captureUntil : List Char → List Char
  | [] => []
  | c :: cs => if nlHashHash (c :: cs) then [] else c :: captureUntil cs

/- One match attempt of a section regex at the current position. -/
def matchSecAt (n : SectionName) : List Char → Option (List Char)
  | c1 :: c2 :: rest =>
    if c1 = '#' ∧ c2 = '#' then
      match matchKw n (rest.dropWhile jsWhitespace) with
      | some r =>
        some (if n = SectionName.summary then afterKw r else captureUntil (afterKw r))
      | none => none
    else none
  | [] => none
  | [_] => none

/- Leftmost match: String.prototype.match tries every position in order. -/
def findSec (n : SectionName) : List Char → Option (List Char)
  | [] => none
  | c :: rest =>
    match matchSecAt n (c :: rest) with
    | some cap => some cap
    | none => findSec n rest

def sectionItems (n : SectionName) (content : List Char) : List (List Char) :=
  match findSec n content with
  | some cap => extractListItems cap
  | none => []

def parseAnalysisResponse (content : List Char) : LogAnalysisResult :=
  { patterns := sectionItems SectionName.patterns content
    anomalies := sectionItems SectionName.anomalies content
    rootCauses := sectionItems SectionName.rootCauses content
    summary :=
      match findSec SectionName.summary content with
      | some cap => jsTrim cap
      | none => [] }

/- Sanity example, the spec's concrete scenario B. -/
theorem parseAnalysisResponse_scenario_b :
    parseAnalysisResponse ("## PATTERNS\n- a\n- b\n\n## SUMMARY\nOK".data) =
      ⟨["a".data, "b".data], [], [], "OK".data⟩ := by
  decide

/- No section heading matches anywhere in the input. -/
def noHeadings (content : List Char) : Prop :=
  findSec SectionName.patterns content = none ∧
  findSec SectionName.anomalies content = none ∧
  findSec SectionName.rootCauses content = none ∧
  findSec SectionName.summary content = none

/-- C8: the section parser is total by construction; when no section heading
regex matches anywhere in the input it returns the all-empty result (empty
patterns, anomalies and rootCauses, empty summary) rather than failing. -/
theorem parseAnalysisResponse_no_headings (content : List Char)
    (h : noHeadings content) :
    parseAnalysisResponse content = ⟨[], [], [], []⟩ := by
  obtain ⟨h1, h2, h3, h4⟩ := h
  unfold parseAnalysisResponse sectionItems
  rw [h1, h2, h3, h4]

theorem parseAnalysisResponse_no_headings_witness :
    parseAnalysisResponse ("plain prose reply with no structure".data) =
      ⟨[], [], [], []⟩ :=
  parseAnalysisResponse_no_headings ("plain prose reply with no structure".data)
    (by constructor <;> [decide; constructor <;> [decide; constructor <;> decide]])

/- Builder for a response made of titled sections, used to state order
   independence: each section is a canonical heading line followed by its
   body, blocks joined with a line feed. -/
def kwChars : SectionName → List Char
  | .patterns => ['P', 'A', 'T', 'T', 'E', 'R', 'N', 'S']
  | .anomalies => ['A', 'N', 'O', 'M', 'A', 'L', 'I', 'E', 'S']
  | .rootCauses => ['R', 'O', 'O', 'T', ' ', 'C', 'A', 'U', 'S', 'E', 'S']
  | .summary => ['S', 'U', 'M', 'M', 'A', 'R', 'Y']

def headerOf (n : SectionName) : List Char := '#' :: '#' :: ' ' :: kwChars n

def sectionBlock (p : SectionName × List Char) : List Char :=
  headerOf p.1 ++ '\n' :: p.2

def buildResponse (l : List (SectionName × List Char)) : List Char :=
  joinNl (l.map sectionBlock)

/- A well-formed section body: no hash characters (so it introduces no
   heading of its own) and at least one non-whitespace character (so the
   greedy whitespace after the heading cannot swallow the next heading). -/
def goodBody (b : List Char) : Prop :=
  (∀ c ∈ b, c ≠ '#') ∧ b.dropWhile jsWhitespace ≠ []

def summaryLast (l : List (SectionName × List Char)) : Prop :=
  ∀ p ∈ l.dropLast, p.1 ≠ SectionName.summary

/-- C3 counterexample: swapping the PATTERNS and SUMMARY sections changes the
parsed result, because the summary regex captures to the end of the input:
with SUMMARY first, the whole PATTERNS section is swallowed into summary. -/
theorem parseAnalysisResponse_order_counterexample :
    List.Perm
      [(SectionName.patterns, "- alpha beta".data),
       (SectionName.summary, "all good".data)]
      [(SectionName.summary, "all good".data),
       (SectionName.patterns, "- alpha beta".data)] ∧
    parseAnalysisResponse (buildResponse
      [(SectionName.patterns, "- alpha beta".data),
       (SectionName.summary, "all good".data)]) ≠
    parseAnalysisResponse (buildResponse
      [(SectionName.summary, "all good".data),
       (SectionName.patterns, "- alpha beta".data)]) := by
  constructor
  · decide
  · decide

theorem dropWhile_append_of_ne_nil (p : Char → Bool) :
    ∀ (xs ys : List Char), xs.dropWhile p ≠ [] →
    (xs ++ ys).dropWhile p = xs.dropWhile p ++ ys := by
  intro xs
  induction xs with
  | nil =>
    intro ys h
    exact absurd rfl h
  | cons c xs' ih =>
    intro ys h
    by_cases hp : p c = true
    · rw [List.cons_append, List.dropWhile_cons, List.dropWhile_cons, if_pos hp,
        if_pos hp]
      rw [List.dropWhile_cons, if_pos hp] at h
      exact ih ys h
    · rw [List.cons_append, List.dropWhile_cons, List.dropWhile_cons, if_neg hp,
        if_neg hp, List.cons_append]

theorem dropWhile_head_not (p : Char → Bool) :
    ∀ (l : List Char) (c : Char) (cs : List Char),
    l.dropWhile p = c :: cs → p c = false := by
  intro l
  induction l with
  | nil =>
    intro c cs h
    simp at h
  | cons a l' ih =>
    intro c cs h
    rw [List.dropWhile_cons] at h
    by_cases hp : p a = true
    · rw [if_pos hp] at h
      exact ih c cs h
    · rw [if_neg hp] at h
      injection h with h1 _
      rw [← h1]
      exact Bool.eq_false_iff.mpr hp

theorem nlHashHash_false_of_second (c c2 : Char) (rest : List Char) (h : c2 ≠ '#') :
    nlHashHash (c :: c2 :: rest) = false := by
  cases rest with
  | nil => rfl
  | cons c3 r =>
    show ((c == '\n') && (c2 == '#') && (c3 == '#')) = false
    have h2 : (c2 == '#') = false := beq_eq_false_iff_ne.mpr h
    simp [h2]

theorem captureUntil_no_hash : ∀ (x : List Char), (∀ c ∈ x, c ≠ '#') →
    captureUntil x = x := by
  intro x
  induction x with
  | nil =>
    intro _
    rfl
  | cons c cs ih =>
    intro h
    have hfalse : ¬nlHashHash (c :: cs) = true := by
      cases cs with
      | nil =>
        have hr : nlHashHash [c] = false := rfl
        simp [hr]
      | cons c2 cs2 =>
        rw [nlHashHash_false_of_second c c2 cs2 (h c2 (by simp))]
        simp
    unfold captureUntil
    rw [if_neg hfalse, ih (fun d hd => h d (by simp [hd]))]

theorem captureUntil_stop : ∀ (x y : List Char), (∀ c ∈ x, c ≠ '#') →
    captureUntil (x ++ '\n' :: '#' :: '#' :: y) = x := by
  intro x
  induction x with
  | nil =>
    intro y _
    show captureUntil ('\n' :: '#' :: '#' :: y) = []
    unfold captureUntil
    rw [if_pos (by rfl)]
  | cons c cs ih =>
    intro y h
    have hfalse : ¬nlHashHash (c :: (cs ++ '\n' :: '#' :: '#' :: y)) = true := by
      cases cs with
      | nil =>
        show ¬nlHashHash (c :: '\n' :: '#' :: '#' :: y) = true
        show ¬(((c == '\n') && ('\n' == '#') && ('#' == '#')) = true)
        have hr : ('\n' == '#') = false := rfl
        simp [hr]
      | cons c2 cs2 =>
        rw [List.cons_append, nlHashHash_false_of_second c c2 _ (h c2 (by simp))]
        simp
    show captureUntil (c :: (cs ++ '\n' :: '#' :: '#' :: y)) = c :: cs
    unfold captureUntil
    rw [if_neg hfalse, ih y (fun d hd => h d (by simp [hd]))]

theorem kwChars_no_hash (m : SectionName) : ∀ c ∈ kwChars m, c ≠ '#' := by
  cases m <;> decide

theorem dropWhile_kw (m : SectionName) (Y : List Char) :
    (kwChars m ++ Y).dropWhile jsWhitespace = kwChars m ++ Y := by
  cases m <;> exact List.dropWhile_cons_of_neg (by decide)

theorem kwConsume (n : SectionName) (z : List Char) :
    matchKw n (kwChars n ++ z) = some z := by
  cases n <;> rfl

theorem kwMismatch (n m : SectionName) (hm : m ≠ n) (z : List Char) :
    matchKw n (kwChars m ++ z) = none := by
  cases n <;> cases m <;> first | exact absurd rfl hm | rfl

theorem matchSecAt_cons2 (n : SectionName) (c1 c2 : Char) (rest : List Char) :
    matchSecAt n (c1 :: c2 :: rest) =
      if c1 = '#' ∧ c2 = '#' then
        match matchKw n (rest.dropWhile jsWhitespace) with
        | some r =>
          some (if n = SectionName.summary then afterKw r else captureUntil (afterKw r))
        | none => none
      else none := rfl

theorem findSec_cons (n : SectionName) (c : Char) (rest : List Char) :
    findSec n (c :: rest) =
      match matchSecAt n (c :: rest) with
      | some cap => some cap
      | none => findSec n rest := rfl

theorem matchSecAt_not_hash2 (n : SectionName) (c1 c2 : Char) (z : List Char)
    (h : ¬(c1 = '#' ∧ c2 = '#')) : matchSecAt n (c1 :: c2 :: z) = none := by
  rw [matchSecAt_cons2, if_neg h]

theorem matchSecAt_head_ne (n : SectionName) (c : Char) (z : List Char)
    (h : c ≠ '#') : matchSecAt n (c :: z) = none := by
  cases z with
  | nil => rfl
  | cons c2 z' => exact matchSecAt_not_hash2 n c c2 z' (fun hh => h hh.1)

theorem matchSecAt_block_other (n m : SectionName) (hm : m ≠ n) (Y : List Char) :
    matchSecAt n ('#' :: '#' :: ' ' :: (kwChars m ++ Y)) = none := by
  rw [matchSecAt_cons2, if_pos ⟨rfl, rfl⟩]
  have hd : ((' ' :: (kwChars m ++ Y)).dropWhile jsWhitespace) = kwChars m ++ Y := by
    rw [List.dropWhile_cons, if_pos (by decide), dropWhile_kw]
  rw [hd, kwMismatch n m hm Y]

theorem afterKw_shape (bdy tail : List Char) (hw : bdy.dropWhile jsWhitespace ≠ []) :
    afterKw ('\n' :: (bdy ++ tail)) = bdy.dropWhile jsWhitespace ++ tail := by
  unfold afterKw
  rw [List.dropWhile_cons, if_pos (by decide),
    dropWhile_append_of_ne_nil jsWhitespace bdy tail hw]
  obtain ⟨c, cs, hcs⟩ : ∃ c cs, bdy.dropWhile jsWhitespace = c :: cs := by
    cases hd : bdy.dropWhile jsWhitespace with
    | nil => exact absurd hd hw
    | cons c cs => exact ⟨c, cs, rfl⟩
  rw [hcs]
  have hc : jsWhitespace c = false := dropWhile_head_not jsWhitespace bdy c cs hcs
  have hcn : c ≠ '\n' := by
    intro he
    rw [he] at hc
    simp [jsWhitespace] at hc
  show (if c = '\n' then cs ++ tail else c :: (cs ++ tail)) = (c :: cs) ++ tail
  rw [if_neg hcn, List.cons_append]

theorem matchSecAt_block_self (n : SectionName) (bdy tail : List Char)
    (hb : ∀ ch ∈ bdy, ch ≠ '#') (hw : bdy.dropWhile jsWhitespace ≠ [])
    (htail : tail = [] ∨ ∃ y, tail = '\n' :: '#' :: '#' :: y) :
    matchSecAt n ('#' :: '#' :: ' ' :: (kwChars n ++ ('\n' :: (bdy ++ tail)))) =
      some (if n = SectionName.summary then bdy.dropWhile jsWhitespace ++ tail
            else bdy.dropWhile jsWhitespace) := by
  rw [matchSecAt_cons2, if_pos ⟨rfl, rfl⟩]
  have hd : ((' ' :: (kwChars n ++ ('\n' :: (bdy ++ tail)))).dropWhile jsWhitespace) =
      kwChars n ++ ('\n' :: (bdy ++ tail)) := by
    rw [List.dropWhile_cons, if_pos (by decide), dropWhile_kw]
  rw [hd, kwConsume n]
  show some (if n = SectionName.summary then afterKw ('\n' :: (bdy ++ tail))
      else captureUntil (afterKw ('\n' :: (bdy ++ tail)))) = _
  rw [afterKw_shape bdy tail hw]
  congr 1
  by_cases hn : n = SectionName.summary
  · rw [if_pos hn, if_pos hn]
  · rw [if_neg hn, if_neg hn]
    have hbc : ∀ c ∈ bdy.dropWhile jsWhitespace, c ≠ '#' := fun c hc =>
      hb c ((List.dropWhile_sublist jsWhitespace).subset hc)
    rcases htail with ht | ⟨y, ht⟩
    · rw [ht, List.append_nil, captureUntil_no_hash _ hbc]
    · rw [ht]
      exact captureUntil_stop _ y hbc

theorem matchSecAt_none_in_region (n m : SectionName) (hm : m ≠ n)
    (bdy ext : List Char) (hb : ∀ ch ∈ bdy, ch ≠ '#') (he : ∀ ch ∈ ext, ch ≠ '#') :
    ∀ t, t ≠ [] → t <:+ ('#' :: '#' :: ' ' :: (kwChars m ++ ('\n' :: (bdy ++ ext)))) →
    ∀ s, matchSecAt n (t ++ s) = none := by
  intro t ht hsuf s
  rcases List.suffix_cons_iff.mp hsuf with h | h
  · rw [h, List.cons_append, List.cons_append, List.cons_append, List.append_assoc,
      List.cons_append, List.append_assoc]
    exact matchSecAt_block_other n m hm _
  · rcases List.suffix_cons_iff.mp h with h2 | h2
    · rw [h2, List.cons_append, List.cons_append]
      exact matchSecAt_not_hash2 n '#' ' ' _ (fun hh => by
        have := hh.2
        simp at this)
    · cases t with
      | nil => exact absurd rfl ht
      | cons c t' =>
        have hsub : (c :: t') ⊆ (' ' :: (kwChars m ++ ('\n' :: (bdy ++ ext)))) :=
          h2.sublist.subset
        have hc : c ∈ ' ' :: (kwChars m ++ ('\n' :: (bdy ++ ext))) :=
          hsub (List.mem_cons_self _ _)
        have hcne : c ≠ '#' := by
          rcases List.mem_cons.mp hc with h3 | h3
          · rw [h3]
            decide
          · rcases List.mem_append.mp h3 with h4 | h4
            · exact kwChars_no_hash m c h4
            · rcases List.mem_cons.mp h4 with h5 | h5
              · rw [h5]
                decide
              · rcases List.mem_append.mp h5 with h6 | h6
                · exact hb c h6
                · exact he c h6
        rw [List.cons_append]
        exact matchSecAt_head_ne n c _ hcne

theorem findSec_skip (n : SectionName) :
    ∀ (w s : List Char),
    (∀ t, t ≠ [] → t <:+ w → matchSecAt n (t ++ s) = none) →
    findSec n (w ++ s) = findSec n s := by
  intro w
  induction w with
  | nil =>
    intro s _
    rfl
  | cons c w' ih =>
    intro s h
    have h0 : matchSecAt n (c :: (w' ++ s)) = none :=
      h (c :: w') (by simp) (List.suffix_refl _)
    show findSec n (c :: (w' ++ s)) = findSec n s
    rw [findSec_cons, h0]
    exact ih s (fun t ht hsuf => h t ht (hsuf.trans (List.suffix_cons c w')))

theorem findSec_cons_some (n : SectionName) (c : Char) (rest cap : List Char)
    (h : matchSecAt n (c :: rest) = some cap) : findSec n (c :: rest) = some cap := by
  rw [findSec_cons, h]

theorem findSec_cons_none (n : SectionName) (c : Char) (rest : List Char)
    (h : matchSecAt n (c :: rest) = none) : findSec n (c :: rest) = findSec n rest := by
  rw [findSec_cons, h]

theorem buildResponse_cons (p : SectionName × List Char)
    (rest : List (SectionName × List Char)) (h : rest ≠ []) :
    buildResponse (p :: rest) = sectionBlock p ++ '\n' :: buildResponse rest := by
  unfold buildResponse
  rw [List.map_cons, joinNl_cons _ _ (by simpa using h)]

theorem buildResponse_starts (q : SectionName × List Char)
    (r : List (SectionName × List Char)) :
    ∃ y, buildResponse (q :: r) = '#' :: '#' :: y := by
  cases r with
  | nil => exact ⟨' ' :: (kwChars q.1 ++ '\n' :: q.2), rfl⟩
  | cons q2 r2 =>
    rw [buildResponse_cons _ _ (by simp)]
    exact ⟨(' ' :: (kwChars q.1 ++ '\n' :: q.2)) ++ '\n' :: buildResponse (q2 :: r2),
      rfl⟩

theorem findSec_build_list (n : SectionName) (hn : n ≠ SectionName.summary) :
    ∀ (l : List (SectionName × List Char)) (b : List Char),
    (∀ p ∈ l, goodBody p.2) → ((l.map Prod.fst).Nodup) → ((n, b) ∈ l) →
    findSec n (buildResponse l) = some (b.dropWhile jsWhitespace) := by
  intro l
  induction l with
  | nil =>
    intro b _ _ hmem
    simp at hmem
  | cons p rest ih =>
    intro b hgood hnodup hmem
    rcases List.mem_cons.mp hmem with heq | hmem'
    · subst heq
      have hgb := hgood (n, b) (by simp)
      cases rest with
      | nil =>
        have hself := matchSecAt_block_self n b [] hgb.1 hgb.2 (Or.inl rfl)
        rw [List.append_nil] at hself
        show findSec n (sectionBlock (n, b)) = _
        have hblock : sectionBlock (n, b) =
            '#' :: '#' :: ' ' :: (kwChars n ++ ('\n' :: b)) := by
          simp [sectionBlock, headerOf]
        rw [hblock, findSec_cons_some n '#' _ _ hself, if_neg hn]
      | cons q rest' =>
        obtain ⟨y, hy⟩ := buildResponse_starts q rest'
        have hself := matchSecAt_block_self n b ('\n' :: buildResponse (q :: rest'))
          hgb.1 hgb.2 (Or.inr ⟨y, by rw [hy]⟩)
        rw [buildResponse_cons _ _ (by simp)]
        have hblock : sectionBlock (n, b) ++ '\n' :: buildResponse (q :: rest') =
            '#' :: '#' :: ' ' ::
              (kwChars n ++ ('\n' :: (b ++ ('\n' :: buildResponse (q :: rest'))))) := by
          simp [sectionBlock, headerOf]
        rw [hblock, findSec_cons_some n '#' _ _ hself, if_neg hn]
    · obtain ⟨m, c⟩ := p
      have hnd : (m, c).1 ∉ rest.map Prod.fst ∧ (rest.map Prod.fst).Nodup := by
        rw [List.map_cons] at hnodup
        exact List.nodup_cons.mp hnodup
      have hm : m ≠ n := by
        intro hmn
        subst hmn
        exact hnd.1 (List.mem_map.mpr ⟨(m, b), hmem', rfl⟩)
      have hrest_ne : rest ≠ [] := by
        intro hr
        rw [hr] at hmem'
        simp at hmem'
      rw [buildResponse_cons _ _ hrest_ne]
      have hfail : ∀ t, t ≠ [] → t <:+ (sectionBlock (m, c) ++ ['\n']) →
          matchSecAt n (t ++ buildResponse rest) = none := by
        have hreg := matchSecAt_none_in_region n m hm c ['\n']
          (hgood (m, c) (by simp)).1 (by decide)
        have hshape : sectionBlock (m, c) ++ ['\n'] =
            '#' :: '#' :: ' ' :: (kwChars m ++ ('\n' :: (c ++ ['\n']))) := by
          simp [sectionBlock, headerOf]
        intro t ht hsuf
        rw [hshape] at hsuf
        exact hreg t ht hsuf _
      rw [show sectionBlock (m, c) ++ '\n' :: buildResponse rest =
          (sectionBlock (m, c) ++ ['\n']) ++ buildResponse rest from by
        rw [List.append_assoc]
        rfl]
      rw [findSec_skip n _ _ hfail]
      exact ih b (fun p hp => hgood p (List.mem_cons_of_mem _ hp)) hnd.2 hmem'

theorem findSec_build_absent (n : SectionName) :
    ∀ (l : List (SectionName × List Char)),
    (∀ p ∈ l, goodBody p.2) → (∀ p ∈ l, p.1 ≠ n) →
    findSec n (buildResponse l) = none := by
  intro l
  induction l with
  | nil =>
    intro _ _
    rfl
  | cons p rest ih =>
    obtain ⟨m, c⟩ := p
    intro hgood habs
    have hm : m ≠ n := habs (m, c) (by simp)
    cases rest with
    | nil =>
      have hfail : ∀ t, t ≠ [] → t <:+ sectionBlock (m, c) →
          matchSecAt n (t ++ []) = none := by
        have hreg := matchSecAt_none_in_region n m hm c []
          (hgood (m, c) (by simp)).1 (by simp)
        have hshape : sectionBlock (m, c) =
            '#' :: '#' :: ' ' :: (kwChars m ++ ('\n' :: (c ++ []))) := by
          simp [sectionBlock, headerOf]
        intro t ht hsuf
        rw [hshape] at hsuf
        exact hreg t ht hsuf []
      have hskip := findSec_skip n (sectionBlock (m, c)) [] hfail
      rw [show buildResponse [(m, c)] = sectionBlock (m, c) ++ [] from by
        rw [List.append_nil]
        rfl]
      rw [hskip]
      rfl
    | cons q rest' =>
      rw [buildResponse_cons _ _ (by simp)]
      have hfail : ∀ t, t ≠ [] → t <:+ (sectionBlock (m, c) ++ ['\n']) →
          matchSecAt n (t ++ buildResponse (q :: rest')) = none := by
        have hreg := matchSecAt_none_in_region n m hm c ['\n']
          (hgood (m, c) (by simp)).1 (by decide)
        have hshape : sectionBlock (m, c) ++ ['\n'] =
            '#' :: '#' :: ' ' :: (kwChars m ++ ('\n' :: (c ++ ['\n']))) := by
          simp [sectionBlock, headerOf]
        intro t ht hsuf
        rw [hshape] at hsuf
        exact hreg t ht hsuf _
      rw [show sectionBlock (m, c) ++ '\n' :: buildResponse (q :: rest') =
          (sectionBlock (m, c) ++ ['\n']) ++ buildResponse (q :: rest') from by
        rw [List.append_assoc]
        rfl]
      rw [findSec_skip n _ _ hfail]
      exact ih (fun p hp => hgood p (List.mem_cons_of_mem _ hp))
        (fun p hp => habs p (List.mem_cons_of_mem _ hp))

theorem findSec_build_summary_last :
    ∀ (lfront : List (SectionName × List Char)) (b : List Char),
    (∀ p ∈ lfront ++ [(SectionName.summary, b)], goodBody p.2) →
    (∀ p ∈ lfront, p.1 ≠ SectionName.summary) →
    findSec SectionName.summary
      (buildResponse (lfront ++ [(SectionName.summary, b)])) =
      some (b.dropWhile jsWhitespace) := by
  intro lfront
  induction lfront with
  | nil =>
    intro b hgood _
    have hgb := hgood (SectionName.summary, b) (by simp)
    have hself := matchSecAt_block_self SectionName.summary b [] hgb.1 hgb.2
      (Or.inl rfl)
    simp only [List.append_nil] at hself
    show findSec SectionName.summary (sectionBlock (SectionName.summary, b)) = _
    have hblock : sectionBlock (SectionName.summary, b) =
        '#' :: '#' :: ' ' :: (kwChars SectionName.summary ++ ('\n' :: b)) := by
      simp [sectionBlock, headerOf]
    rw [hblock, findSec_cons_some _ '#' _ _ hself, if_pos trivial]
  | cons p rest ih =>
    obtain ⟨m, c⟩ := p
    intro b hgood hlast
    have hm : m ≠ SectionName.summary := hlast (m, c) (by simp)
    rw [show ((m, c) :: rest) ++ [(SectionName.summary, b)] =
        (m, c) :: (rest ++ [(SectionName.summary, b)]) from rfl]
    rw [buildResponse_cons _ _ (by simp)]
    have hfail : ∀ t, t ≠ [] → t <:+ (sectionBlock (m, c) ++ ['\n']) →
        matchSecAt SectionName.summary
          (t ++ buildResponse (rest ++ [(SectionName.summary, b)])) = none := by
      have hreg := matchSecAt_none_in_region SectionName.summary m hm c ['\n']
        (hgood (m, c) (by simp)).1 (by decide)
      have hshape : sectionBlock (m, c) ++ ['\n'] =
          '#' :: '#' :: ' ' :: (kwChars m ++ ('\n' :: (c ++ ['\n']))) := by
        simp [sectionBlock, headerOf]
      intro t ht hsuf
      rw [hshape] at hsuf
      exact hreg t ht hsuf _
    rw [show sectionBlock (m, c) ++
          '\n' :: buildResponse (rest ++ [(SectionName.summary, b)]) =
        (sectionBlock (m, c) ++ ['\n']) ++
          buildResponse (rest ++ [(SectionName.summary, b)]) from by
      rw [List.append_assoc]
      rfl]
    rw [findSec_skip _ _ _ hfail]
    exact ih b (fun p hp => hgood p (List.mem_cons_of_mem _ hp))
      (fun p hp => hlast p (List.mem_cons_of_mem _ hp))

theorem summary_mem_last (l : List (SectionName × List Char)) (b : List Char)
    (hmem : (SectionName.summary, b) ∈ l) (hlast : summaryLast l) :
    ∃ lfront, l = lfront ++ [(SectionName.summary, b)] ∧
      ∀ p ∈ lfront, p.1 ≠ SectionName.summary := by
  have hne : l ≠ [] := by
    intro h
    rw [h] at hmem
    simp at hmem
  have hsplit : l.dropLast ++ [l.getLast hne] = l := List.dropLast_append_getLast hne
  have hmem' : (SectionName.summary, b) ∈ l.dropLast ++ [l.getLast hne] := by
    rw [hsplit]
    exact hmem
  have hglast : l.getLast hne = (SectionName.summary, b) := by
    rcases List.mem_append.mp hmem' with h | h
    · exact absurd rfl (hlast _ h)
    · exact (List.mem_singleton.mp h).symm
  refine ⟨l.dropLast, ?_, fun p hp => hlast p hp⟩
  rw [← hglast]
  exact hsplit.symm

/-- C3 amended: for a response built from distinct titled sections whose
bodies contain no hash character and at least one non-whitespace character,
permuting the sections never changes the parsed patterns, anomalies or
rootCauses fields; the whole parsed result is unchanged provided the SUMMARY
section (when present) stays in the last position in both orders — moving
SUMMARY earlier changes the summary field, whose regex captures to the end
of the input. -/
theorem parseAnalysisResponse_order_amended (l₁ l₂ : List (SectionName × List Char))
    (hperm : l₁.Perm l₂) (hnodup : (l₁.map Prod.fst).Nodup)
    (hgood : ∀ p ∈ l₁, goodBody p.2) :
    (parseAnalysisResponse (buildResponse l₁)).patterns =
      (parseAnalysisResponse (buildResponse l₂)).patterns ∧
    (parseAnalysisResponse (buildResponse l₁)).anomalies =
      (parseAnalysisResponse (buildResponse l₂)).anomalies ∧
    (parseAnalysisResponse (buildResponse l₁)).rootCauses =
      (parseAnalysisResponse (buildResponse l₂)).rootCauses ∧
    (summaryLast l₁ → summaryLast l₂ →
      parseAnalysisResponse (buildResponse l₁) =
        parseAnalysisResponse (buildResponse l₂)) := by
  have hnodup₂ : (l₂.map Prod.fst).Nodup := ((hperm.map Prod.fst).nodup_iff).mp hnodup
  have hgood₂ : ∀ p ∈ l₂, goodBody p.2 := fun p hp => hgood p (hperm.mem_iff.mpr hp)
  have hsec : ∀ n, n ≠ SectionName.summary →
      findSec n (buildResponse l₁) = findSec n (buildResponse l₂) := by
    intro n hn
    by_cases hmem : ∃ bb, (n, bb) ∈ l₁
    · obtain ⟨bb, hb⟩ := hmem
      rw [findSec_build_list n hn l₁ bb hgood hnodup hb,
        findSec_build_list n hn l₂ bb hgood₂ hnodup₂ (hperm.mem_iff.mp hb)]
    · have habs₁ : ∀ p ∈ l₁, p.1 ≠ n := by
        intro p hp he
        obtain ⟨a, bb⟩ := p
        subst he
        exact hmem ⟨bb, hp⟩
      have habs₂ : ∀ p ∈ l₂, p.1 ≠ n := fun p hp => habs₁ p (hperm.mem_iff.mpr hp)
      rw [findSec_build_absent n l₁ hgood habs₁,
        findSec_build_absent n l₂ hgood₂ habs₂]
  refine ⟨?_, ?_, ?_, ?_⟩
  · show sectionItems SectionName.patterns _ = sectionItems SectionName.patterns _
    unfold sectionItems
    rw [hsec SectionName.patterns (by decide)]
  · show sectionItems SectionName.anomalies _ = sectionItems SectionName.anomalies _
    unfold sectionItems
    rw [hsec SectionName.anomalies (by decide)]
  · show sectionItems SectionName.rootCauses _ = sectionItems SectionName.rootCauses _
    unfold sectionItems
    rw [hsec SectionName.rootCauses (by decide)]
  · intro hl₁ hl₂
    have hsum : findSec SectionName.summary (buildResponse l₁) =
        findSec SectionName.summary (buildResponse l₂) := by
      by_cases hmem : ∃ bb, (SectionName.summary, bb) ∈ l₁
      · obtain ⟨bb, hb₁⟩ := hmem
        obtain ⟨f₁, he₁, hf₁⟩ := summary_mem_last l₁ bb hb₁ hl₁
        obtain ⟨f₂, he₂, hf₂⟩ := summary_mem_last l₂ bb (hperm.mem_iff.mp hb₁) hl₂
        have hg₁ : ∀ p ∈ f₁ ++ [(SectionName.summary, bb)], goodBody p.2 := by
          rw [← he₁]
          exact hgood
        have hg₂ : ∀ p ∈ f₂ ++ [(SectionName.summary, bb)], goodBody p.2 := by
          rw [← he₂]
          exact hgood₂
        rw [he₁, he₂, findSec_build_summary_last f₁ bb hg₁ hf₁,
          findSec_build_summary_last f₂ bb hg₂ hf₂]
      · have habs₁ : ∀ p ∈ l₁, p.1 ≠ SectionName.summary := by
          intro p hp he
          obtain ⟨a, bb⟩ := p
          subst he
          exact hmem ⟨bb, hp⟩
        have habs₂ : ∀ p ∈ l₂, p.1 ≠ SectionName.summary :=
          fun p hp => habs₁ p (hperm.mem_iff.mpr hp)
        rw [findSec_build_absent _ l₁ hgood habs₁,
          findSec_build_absent _ l₂ hgood₂ habs₂]
    unfold parseAnalysisResponse sectionItems
    rw [hsec SectionName.patterns (by decide), hsec SectionName.anomalies (by decide),
      hsec SectionName.rootCauses (by decide), hsum]

theorem parseAnalysisResponse_order_amended_witness :
    parseAnalysisResponse (buildResponse
      [(SectionName.patterns, "- a".data), (SectionName.anomalies, "- b".data),
       (SectionName.summary, "fine".data)]) =
    parseAnalysisResponse (buildResponse
      [(SectionName.anomalies, "- b".data), (SectionName.patterns, "- a".data),
       (SectionName.summary, "fine".data)]) :=
  (parseAnalysisResponse_order_amended
    [(SectionName.patterns, "- a".data), (SectionName.anomalies, "- b".data),
     (SectionName.summary, "fine".data)]
    [(SectionName.anomalies, "- b".data), (SectionName.patterns, "- a".data),
     (SectionName.summary, "fine".data)]
    (by decide) (by decide)
    (by
      intro p hp
      fin_cases hp <;> exact ⟨by decide, by decide⟩)).2.2.2
    (by
      intro p hp
      fin_cases hp <;> decide)
    (by
      intro p hp
      fin_cases hp <;> decide)

/- The exact-line matcher.  Input records: raw file text plus filename. -/
structure FileText where
  content : List Char
  filename : List Char
deriving DecidableEq, Repr

def isHexDigit (c : Char) : Bool :=
  c.isDigit || ('a' ≤ c && c ≤ 'f') || ('A' ≤ c && c ≤ 'F')

def isWordChar (c : Char) : Bool := c.isAlpha || c.isDigit || c == '_'

def wordOpt : Option Char → Bool
  | some c => isWordChar c
  | none => false

def wordEndOk : List Char → Bool
  | c :: _ => !isWordChar c
  | [] => true

/- Exactly n characters of a class (a bounded regex repetition). -/
def dropExactly (p : Char → Bool) : Nat → List Char → Option (List Char)
  | 0, s => some s
  | _ + 1, [] => none
  | k + 1, c :: cs => if p c then dropExactly p k cs else none

def dropOne (p : Char → Bool) : List Char → Option (List Char)
  | c :: cs => if p c then some cs else none
  | [] => none

/- An optional single character (a regex question mark), never failing. -/
def optDrop (p : Char → Bool) : List Char → List Char
  | c :: cs => if p c then cs else c :: cs
  | [] => []

/- Case-sensitive literal. -/
def dropLit : List Char → List Char → Option (List Char)
  | [], s => some s
  | _ :: _, [] => none
  | l :: ls, c :: cs => if c == l then dropLit ls cs else none

/- The shared HH:MM:SS core of the timestamp regexes. -/
def matchTimeCore (s : List Char) : Option (List Char) :=
  (((((dropExactly Char.isDigit 2 s).bind (dropOne (· == ':'))).bind
    (dropExactly Char.isDigit 2)).bind (dropOne (· == ':'))).bind
    (dropExactly Char.isDigit 2))

/- The YYYY-MM-DD[T ] date prefix shared by the two ISO timestamp regexes. -/
def matchIsoDate (s : List Char) : Option (List Char) :=
  ((((((dropExactly Char.isDigit 4 s).bind (dropOne (· == '-'))).bind
    (dropExactly Char.isDigit 2)).bind (dropOne (· == '-'))).bind
    (dropExactly Char.isDigit 2)).bind
    (dropOne (fun c => c == 'T' || c == 't' || c == ' ')))

/- Anchored regex 1: ISO timestamp at line start. -/
def matchIso (s : List Char) : Option (List Char) :=
  match (matchIsoDate s).bind matchTimeCore with
  | some r =>
    some (((optDrop (fun c => c == '.' || c == ',') r).dropWhile
      Char.isDigit |> optDrop (fun c => c == 'Z' || c == 'z')).dropWhile jsWhitespace)
  | none => none

/- Anchored regex 2: bracketed ISO timestamp at line start. -/
def matchIsoBr (s : List Char) : Option (List Char) :=
  match ((dropOne (· == '[') s).bind matchIsoDate).bind matchTimeCore with
  | some r =>
    match dropOne (· == ']')
        ((optDrop (fun c => c == '.' || c == ',') r).dropWhile Char.isDigit
          |> optDrop (fun c => c == 'Z' || c == 'z')) with
    | some r2 => some (r2.dropWhile jsWhitespace)
    | none => none
  | none => none

/- Anchored regex 3: MM/DD/YYYY HH:MM:SS at line start. -/
def matchUsDate (s : List Char) : Option (List Char) :=
  match ((((dropExactly Char.isDigit 2 s).bind (dropOne (· == '/'))).bind
      (dropExactly Char.isDigit 2)).bind (dropOne (· == '/'))).bind
      (dropExactly Char.isDigit 4) with
  | some r =>
    match r with
    | c :: cs =>
      if jsWhitespace c then
        match matchTimeCore (cs.dropWhile jsWhitespace) with
        | some r2 => some (r2.dropWhile jsWhitespace)
        | none => none
      else none
    | [] => none
  | none => none

/- Anchored regex 4: bare HH:MM:SS at line start. -/
def matchBareTime (s : List Char) : Option (List Char) :=
  match matchTimeCore s with
  | some r =>
    some (((optDrop (fun c => c == '.' || c == ',') r).dropWhile
      Char.isDigit).dropWhile jsWhitespace)
  | none => none

/- Replace the first anchored match (the regex has no global flag) by the
   empty string: keep the rest of the line, or the whole line if no match. -/
def applyAnchored (m : List Char → Option (List Char)) (s : List Char) : List Char :=
  match m s with
  | some r => r
  | none => s

/- Global regex 5: UUIDs anywhere, with word boundaries. -/
def matchUuidAt (prev : Option Char) (s : List Char) : Option (List Char) :=
  if wordOpt prev then none
  else
    match ((((((((dropExactly isHexDigit 8 s).bind (dropOne (· == '-'))).bind
        (dropExactly isHexDigit 4)).bind (dropOne (· == '-'))).bind
        (dropExactly isHexDigit 4)).bind (dropOne (· == '-'))).bind
        (dropExactly isHexDigit 4)).bind (dropOne (· == '-'))).bind
        (dropExactly isHexDigit 12) with
    | some rest => if wordEndOk rest then some rest else none
    | none => none

/- Global regex 6: 0x hex literals anywhere, with word boundaries. -/
def match0xAt (prev : Option Char) (s : List Char) : Option (List Char) :=
  if wordOpt prev then none
  else
    match s with
    | c1 :: c2 :: rest =>
      if (c1 == '0') && (c2 == 'x' || c2 == 'X') then
        if rest.takeWhile isHexDigit = [] then none
        else
          if wordEndOk (rest.dropWhile isHexDigit) then
            some (rest.dropWhile isHexDigit)
          else none
      else none
    | _ => none

/- Global regexes 7 and 8: pid / tid tokens, case-insensitive. -/
def matchPidLikeAt (lit : List Char) (prev : Option Char) (s : List Char) :
    Option (List Char) :=
  if wordOpt prev then none
  else
    match dropCi lit s with
    | some r =>
      if (r.dropWhile (fun c => c == ':' || jsWhitespace c)).takeWhile
          Char.isDigit = [] then none
      else
        if wordEndOk ((r.dropWhile (fun c => c == ':' || jsWhitespace c)).dropWhile
            Char.isDigit) then
          some ((r.dropWhile (fun c => c == ':' || jsWhitespace c)).dropWhile
            Char.isDigit)
        else none
    | none => none

/- Global regex 9: bracketed pure-numeric tokens anywhere. -/
def matchBrNumAt (_prev : Option Char) (s : List Char) : Option (List Char) :=
  match s with
  | '[' :: rest =>
    if rest.takeWhile Char.isDigit = [] then none
    else
      match rest.drop (rest.takeWhile Char.isDigit).length with
      | ']' :: r2 => some r2
      | _ => none
  | _ => none

/- Global replacement by the empty string: scan left to right, tracking the
   previous character for word boundaries; skip a match, emit a non-match. -/
def gScanF (m : Option Char → List Char → Option (List Char)) :
    Nat → Option Char → List Char → List Char
  | 0, _, s => s
  | _ + 1, _, [] => []
  | f + 1, prev, c :: cs =>
    match m prev (c :: cs) with
    | some rest =>
      gScanF m f ((c :: cs).take ((c :: cs).length - rest.length)).getLast? rest
    | none => c :: gScanF m f (some c) cs

def replaceAllG (m : Option Char → List Char → Option (List Char))
    (s : List Char) : List Char :=
  gScanF m s.length none s

/- The full normalization pipeline of findExactLineMatches, in order. -/
def normalizeLine (line : List Char) : List Char :=
  replaceAllG matchBrNumAt
    (replaceAllG (matchPidLikeAt ['t', 'i', 'd'])
      (replaceAllG (matchPidLikeAt ['p', 'i', 'd'])
        (replaceAllG match0xAt
          (replaceAllG matchUuidAt
            (applyAnchored matchBareTime
              (applyAnchored matchUsDate
                (applyAnchored matchIsoBr
                  (applyAnchored matchIso line))))))))

/- Sanity: the timestamp-invariance example from the specification. -/
theorem normalizeLine_iso_example :
    normalizeLine ("2024-01-01T00:00:00Z ERROR db down".data) = "ERROR db down".data := by
  decide

/- Keyword test with word boundaries, scanning every position. -/
def litThenBoundary (pat : List Char) (s : List Char) : Bool :=
  match dropLit pat s with
  | some r => wordEndOk r
  | none => false

def scanTest (f : List Char → Bool) : Option Char → List Char → Bool
  | prev, [] => !wordOpt prev && f []
  | prev, c :: cs => (!wordOpt prev && f (c :: cs)) || scanTest f (some c) cs

def testKw (pat : List Char) (s : List Char) : Bool :=
  scanTest (litThenBoundary pat) none s

def testWarn (s : List Char) : Bool :=
  scanTest (fun t => litThenBoundary ['w', 'a', 'r', 'n', 'i', 'n', 'g'] t ||
    litThenBoundary ['w', 'a', 'r', 'n'] t) none s

/- Categorize a line by severity keywords, in the source's priority order. -/
def categorize (line : List Char) : LineCategory :=
  let lower := lowerL line
  if testKw ("error".data) lower || testKw ("failed".data) lower ||
      testKw ("exception".data) lower || testKw ("crash".data) lower ||
      testKw ("fatal".data) lower then LineCategory.error
  else if testWarn lower || testKw ("caution".data) lower then LineCategory.warning
  else if testKw ("info".data) lower then LineCategory.info
  else if testKw ("debug".data) lower || testKw ("trace".data) lower ||
      testKw ("verbose".data) lower then LineCategory.debug
  else LineCategory.other

/- The value stored in the lineMap for one normalized line. -/
structure LineEntry where
  original : List Char
  occurrences : List (List Char × List Nat)
  category : LineCategory
deriving DecidableEq, Repr

/- Append a 1-indexed line number under a filename, JavaScript Map style:
   existing filenames are updated in place, new ones appended. -/
def pushOcc : List (List Char × List Nat) → List Char → Nat →
    List (List Char × List Nat)
  | [], fname, ln => [(fname, [ln])]
  | e :: rest, fname, ln =>
    if e.1 = fname then (e.1, e.2 ++ [ln]) :: rest else e :: pushOcc rest fname ln

/- Record one surviving line in the lineMap (insertion-ordered, keyed by the
   normalized text; the original text and category are from the first hit). -/
def recordLine : List (List Char × LineEntry) → List Char → List Char →
    List Char → Nat → LineCategory → List (List Char × LineEntry)
  | [], key, original, fname, ln, cat => [(key, ⟨original, [(fname, [ln])], cat⟩)]
  | e :: rest, key, original, fname, ln, cat =>
    if e.1 = key then
      (e.1, ⟨e.2.original, pushOcc e.2.occurrences fname ln, e.2.category⟩) :: rest
    else e :: recordLine rest key original fname ln cat

/- One file's lines: skip short or purely numeric lines, normalize, skip if
   the normalized form is still short, else record with a 1-indexed number. -/
def processFileLines (fname : List Char) :
    List (List Char) → Nat → List (List Char × LineEntry) →
    List (List Char × LineEntry)
  | [], _, m => m
  | l :: rest, lineNum, m =>
    if decide ((jsTrim l).length < 10) ||
        (!(jsTrim l).isEmpty && (jsTrim l).all Char.isDigit) then
      processFileLines fname rest (lineNum + 1) m
    else
      if decide ((lowerL (jsTrim (normalizeLine (jsTrim l)))).length < 10) then
        processFileLines fname rest (lineNum + 1) m
      else
        processFileLines fname rest (lineNum + 1)
          (recordLine m (lowerL (jsTrim (normalizeLine (jsTrim l)))) (jsTrim l)
            fname (lineNum + 1) (categorize (jsTrim l)))

def buildLineMap (files : List FileText) : List (List Char × LineEntry) :=
  files.foldl (fun m f => processFileLines f.filename (splitNl f.content) 0 m) []

/- Turn a qualifying lineMap entry into an ExactLineMatch: line numbers are
   capped at 10 per file for display, totalCount is computed uncapped. -/
def entryToMatch (e : LineEntry) : ExactLineMatch :=
  { line := e.original
    occurrences := e.occurrences.map (fun o => ⟨o.1, o.2.take 10⟩)
    category := e.category
    totalCount := (e.occurrences.map (fun o => o.2.length)).sum }

def buildMatches (m : List (List Char × LineEntry)) : List ExactLineMatch :=
  (m.filter (fun e => 2 ≤ e.2.occurrences.length)).map (fun e => entryToMatch e.2)

/- The sort comparator: category priority, then descending totalCount.
   cmpGT y a holds when the comparator orders y strictly after a, so the
   stable insertion places a before the first such y. -/
def catOrd : LineCategory → Nat
  | .error => 0
  | .warning => 1
  | .info => 2
  | .debug => 3
  | .other => 4

def cmpGT (y a : ExactLineMatch) : Bool :=
  decide (catOrd a.category < catOrd y.category) ||
    ((catOrd y.category == catOrd a.category) && decide (y.totalCount < a.totalCount))

def ordInsert (a : ExactLineMatch) : List ExactLineMatch → List ExactLineMatch
  | [] => [a]
  | y :: ys => if cmpGT y a then a :: y :: ys else y :: ordInsert a ys

/- Stable sort under the comparator (JavaScript Array.prototype.sort). -/
def sortMatches (l : List ExactLineMatch) : List ExactLineMatch :=
  l.foldl (fun acc a => ordInsert a acc) []

def findExactLineMatches (files : List FileText) : List ExactLineMatch :=
  if files.length < 2 then []
  else
    if (buildMatches (buildLineMap files)).length < 2 then []
    else (sortMatches (buildMatches (buildLineMap files))).take 50

/- Sanity: two files sharing two normalized lines produce two matches, the
   error-category line first. -/
theorem findExactLineMatches_example :
    (findExactLineMatches
      [⟨"2024-01-01T10:00:00Z shared error line one\nshared warning line two".data,
        "a.log".data⟩,
       ⟨"shared error line one\nshared warning line two".data, "b.log".data⟩]).map
      (fun m => m.category) = [LineCategory.error, LineCategory.warning] := by
  decide

/- The claimed output ordering: category priority ascending, totalCount
   descending within equal categories. -/
def sortRel (a b : ExactLineMatch) : Prop :=
  catOrd a.category < catOrd b.category ∨
    (catOrd a.category = catOrd b.category ∧ b.totalCount ≤ a.totalCount)

theorem cmpGT_false_iff (y a : ExactLineMatch) :
    cmpGT y a = false ↔ sortRel y a := by
  unfold cmpGT sortRel
  rw [Bool.or_eq_false_iff, Bool.and_eq_false_iff]
  simp only [decide_eq_false_iff_not, beq_eq_false_iff_ne, ne_eq]
  omega

theorem cmpGT_true_rel (y a : ExactLineMatch) (h : cmpGT y a = true) :
    sortRel a y := by
  unfold cmpGT at h
  rw [Bool.or_eq_true] at h
  unfold sortRel
  rcases h with h | h
  · exact Or.inl (of_decide_eq_true h)
  · rw [Bool.and_eq_true] at h
    refine Or.inr ⟨(beq_iff_eq.mp h.1).symm, Nat.le_of_lt (of_decide_eq_true h.2)⟩

theorem sortRel_trans (a b c : ExactLineMatch)
    (h1 : sortRel a b) (h2 : sortRel b c) : sortRel a c := by
  unfold sortRel at *
  omega

theorem ordInsert_mem (a : ExactLineMatch) :
    ∀ (l : List ExactLineMatch) (z : ExactLineMatch),
    z ∈ ordInsert a l → z = a ∨ z ∈ l := by
  intro l
  induction l with
  | nil =>
    intro z hz
    simp [ordInsert] at hz
    exact Or.inl hz
  | cons y ys ih =>
    intro z hz
    unfold ordInsert at hz
    by_cases hc : cmpGT y a = true
    · rw [if_pos hc] at hz
      rcases List.mem_cons.mp hz with h | h
      · exact Or.inl h
      · exact Or.inr h
    · rw [if_neg hc] at hz
      rcases List.mem_cons.mp hz with h | h
      · exact Or.inr (by rw [h]; exact List.mem_cons_self _ _)
      · rcases ih z h with h2 | h2
        · exact Or.inl h2
        · exact Or.inr (List.mem_cons_of_mem _ h2)

theorem ordInsert_pairwise (a : ExactLineMatch) :
    ∀ (l : List ExactLineMatch), List.Pairwise sortRel l →
    List.Pairwise sortRel (ordInsert a l) := by
  intro l
  induction l with
  | nil =>
    intro _
    simp [ordInsert]
  | cons y ys ih =>
    intro hp
    rcases List.pairwise_cons.mp hp with ⟨hy, hys⟩
    unfold ordInsert
    by_cases hc : cmpGT y a = true
    · rw [if_pos hc]
      refine List.pairwise_cons.mpr ⟨?_, hp⟩
      intro z hz
      rcases List.mem_cons.mp hz with h | h
      · rw [h]
        exact cmpGT_true_rel y a hc
      · exact sortRel_trans a y z (cmpGT_true_rel y a hc) (hy z h)
    · rw [if_neg hc]
      refine List.pairwise_cons.mpr ⟨?_, ih hys⟩
      intro z hz
      rcases ordInsert_mem a ys z hz with h | h
      · rw [h]
        exact (cmpGT_false_iff y a).mp (Bool.eq_false_iff.mpr hc)
      · exact hy z h

theorem sortMatchesAux_pairwise :
    ∀ (l acc : List ExactLineMatch), List.Pairwise sortRel acc →
    List.Pairwise sortRel (l.foldl (fun acc a => ordInsert a acc) acc) := by
  intro l
  induction l with
  | nil =>
    intro acc h
    exact h
  | cons x xs ih =>
    intro acc h
    rw [List.foldl_cons]
    exact ih (ordInsert x acc) (ordInsert_pairwise x acc h)

theorem sortMatches_pairwise (l : List ExactLineMatch) :
    List.Pairwise sortRel (sortMatches l) :=
  sortMatchesAux_pairwise l [] List.Pairwise.nil

theorem ordInsert_length (a : ExactLineMatch) :
    ∀ (l : List ExactLineMatch), (ordInsert a l).length = l.length + 1 := by
  intro l
  induction l with
  | nil => rfl
  | cons y ys ih =>
    unfold ordInsert
    by_cases hc : cmpGT y a = true
    · rw [if_pos hc]
      simp
    · rw [if_neg hc]
      simp only [List.length_cons, ih]

theorem sortMatchesAux_length :
    ∀ (l acc : List ExactLineMatch),
    (l.foldl (fun acc a => ordInsert a acc) acc).length = acc.length + l.length := by
  intro l
  induction l with
  | nil =>
    intro acc
    simp
  | cons x xs ih =>
    intro acc
    rw [List.foldl_cons, ih, ordInsert_length]
    simp only [List.length_cons]
    omega

theorem sortMatches_length (l : List ExactLineMatch) :
    (sortMatches l).length = l.length := by
  unfold sortMatches
  rw [sortMatchesAux_length]
  simp

theorem sortMatchesAux_mem :
    ∀ (l acc : List ExactLineMatch) (z : ExactLineMatch),
    z ∈ l.foldl (fun acc a => ordInsert a acc) acc → z ∈ acc ∨ z ∈ l := by
  intro l
  induction l with
  | nil =>
    intro acc z h
    exact Or.inl h
  | cons x xs ih =>
    intro acc z h
    rw [List.foldl_cons] at h
    rcases ih (ordInsert x acc) z h with h2 | h2
    · rcases ordInsert_mem x acc z h2 with h3 | h3
      · exact Or.inr (by rw [h3]; exact List.mem_cons_self _ _)
      · exact Or.inl h3
    · exact Or.inr (List.mem_cons_of_mem _ h2)

theorem sortMatches_mem (l : List ExactLineMatch) (z : ExactLineMatch)
    (h : z ∈ sortMatches l) : z ∈ l := by
  rcases sortMatchesAux_mem l [] z h with h2 | h2
  · simp at h2
  · exact h2

/-- C9: for every input list of files, the exact-line matcher's output is
sorted by category priority (error, warning, info, debug, other) and, within
one category, by descending totalCount, and it contains at most 50 entries. -/
theorem findExactLineMatches_sorted_capped (files : List FileText) :
    List.Pairwise sortRel (findExactLineMatches files) ∧
    (findExactLineMatches files).length ≤ 50 := by
  unfold findExactLineMatches
  by_cases h1 : files.length < 2
  · rw [if_pos h1]
    exact ⟨List.Pairwise.nil, by simp⟩
  · rw [if_neg h1]
    by_cases h2 : (buildMatches (buildLineMap files)).length < 2
    · rw [if_pos h2]
      exact ⟨List.Pairwise.nil, by simp⟩
    · rw [if_neg h2]
      constructor
      · exact (sortMatches_pairwise _).sublist (List.take_sublist _ _)
      · rw [List.length_take]
        omega

theorem pushOcc_fst_mem (fname : List Char) (ln : Nat) :
    ∀ (occ : List (List Char × List Nat)) (x : List Char),
    x ∈ (pushOcc occ fname ln).map Prod.fst → x ∈ occ.map Prod.fst ∨ x = fname := by
  intro occ
  induction occ with
  | nil =>
    intro x h
    simp [pushOcc] at h
    exact Or.inr h
  | cons e rest ih =>
    intro x h
    unfold pushOcc at h
    by_cases he : e.1 = fname
    · rw [if_pos he] at h
      simp only [List.map_cons] at h ⊢
      exact Or.inl h
    · rw [if_neg he] at h
      simp only [List.map_cons] at h ⊢
      rcases List.mem_cons.mp h with h2 | h2
      · exact Or.inl (List.mem_cons.mpr (Or.inl h2))
      · rcases ih x h2 with h3 | h3
        · exact Or.inl (List.mem_cons.mpr (Or.inr h3))
        · exact Or.inr h3

theorem pushOcc_nodup (fname : List Char) (ln : Nat) :
    ∀ (occ : List (List Char × List Nat)), (occ.map Prod.fst).Nodup →
    ((pushOcc occ fname ln).map Prod.fst).Nodup := by
  intro occ
  induction occ with
  | nil =>
    intro _
    simp [pushOcc]
  | cons e rest ih =>
    intro h
    simp only [List.map_cons] at h
    rcases List.nodup_cons.mp h with ⟨hnotin, hrest⟩
    unfold pushOcc
    by_cases he : e.1 = fname
    · rw [if_pos he]
      simp only [List.map_cons]
      exact List.nodup_cons.mpr ⟨hnotin, hrest⟩
    · rw [if_neg he]
      simp only [List.map_cons]
      refine List.nodup_cons.mpr ⟨?_, ih hrest⟩
      intro hmem
      rcases pushOcc_fst_mem fname ln rest e.1 hmem with h2 | h2
      · exact hnotin h2
      · exact he h2

theorem recordLine_nodup (key original fname : List Char) (ln : Nat)
    (cat : LineCategory) :
    ∀ (m : List (List Char × LineEntry)),
    (∀ p ∈ m, (p.2.occurrences.map Prod.fst).Nodup) →
    ∀ p ∈ recordLine m key original fname ln cat,
      (p.2.occurrences.map Prod.fst).Nodup := by
  intro m
  induction m with
  | nil =>
    intro _ p hp
    simp [recordLine] at hp
    rw [hp]
    simp
  | cons e rest ih =>
    intro hinv p hp
    unfold recordLine at hp
    by_cases he : e.1 = key
    · rw [if_pos he] at hp
      rcases List.mem_cons.mp hp with h | h
      · rw [h]
        exact pushOcc_nodup fname ln _ (hinv e (List.mem_cons_self _ _))
      · exact hinv p (List.mem_cons_of_mem _ h)
    · rw [if_neg he] at hp
      rcases List.mem_cons.mp hp with h | h
      · rw [h]
        exact hinv e (List.mem_cons_self _ _)
      · exact ih (fun q hq => hinv q (List.mem_cons_of_mem _ hq)) p h

theorem processFileLines_nodup (fname : List Char) :
    ∀ (lines : List (List Char)) (lineNum : Nat)
      (m : List (List Char × LineEntry)),
    (∀ p ∈ m, (p.2.occurrences.map Prod.fst).Nodup) →
    ∀ p ∈ processFileLines fname lines lineNum m,
      (p.2.occurrences.map Prod.fst).Nodup := by
  intro lines
  induction lines with
  | nil =>
    intro _ m h p hp
    exact h p hp
  | cons l rest ih =>
    intro lineNum m hinv
    unfold processFileLines
    by_cases h1 : (decide ((jsTrim l).length < 10) ||
        (!(jsTrim l).isEmpty && (jsTrim l).all Char.isDigit)) = true
    · rw [if_pos h1]
      exact ih _ _ hinv
    · rw [if_neg h1]
      by_cases h2 :
          (decide ((lowerL (jsTrim (normalizeLine (jsTrim l)))).length < 10)) = true
      · rw [if_pos h2]
        exact ih _ _ hinv
      · rw [if_neg h2]
        exact ih _ _ (recordLine_nodup _ _ _ _ _ _ hinv)

theorem buildLineMap_nodup (files : List FileText) :
    ∀ p ∈ buildLineMap files, (p.2.occurrences.map Prod.fst).Nodup := by
  have main : ∀ (fs : List FileText) (m : List (List Char × LineEntry)),
      (∀ p ∈ m, (p.2.occurrences.map Prod.fst).Nodup) →
      ∀ p ∈ fs.foldl
        (fun m f => processFileLines f.filename (splitNl f.content) 0 m) m,
        (p.2.occurrences.map Prod.fst).Nodup := by
    intro fs
    induction fs with
    | nil =>
      intro m h
      exact h
    | cons f fs ih =>
      intro m h
      rw [List.foldl_cons]
      exact ih _ (processFileLines_nodup f.filename (splitNl f.content) 0 m h)
  exact main files [] (by simp)

/-- C2: the exact-line matcher never reports a line found in only one file:
every returned match records occurrences in at least 2 distinct files (its
per-file occurrence list has length at least 2 and pairwise-distinct
filenames), and the whole result is empty unless at least 2 qualifying
groups exist. -/
theorem findExactLineMatches_threshold (files : List FileText)
    (hfiles : 2 ≤ files.length) :
    (∀ m ∈ findExactLineMatches files,
      2 ≤ m.occurrences.length ∧
        (m.occurrences.map (fun o => o.filename)).Nodup) ∧
    (findExactLineMatches files = [] ∨ 2 ≤ (findExactLineMatches files).length) := by
  have _ := hfiles
  constructor
  · intro m hm
    unfold findExactLineMatches at hm
    by_cases h1 : files.length < 2
    · rw [if_pos h1] at hm
      simp at hm
    · rw [if_neg h1] at hm
      by_cases h2 : (buildMatches (buildLineMap files)).length < 2
      · rw [if_pos h2] at hm
        simp at hm
      · rw [if_neg h2] at hm
        have hm2 : m ∈ sortMatches (buildMatches (buildLineMap files)) :=
          (List.take_sublist _ _).subset hm
        have hm3 := sortMatches_mem _ _ hm2
        unfold buildMatches at hm3
        rcases List.mem_map.mp hm3 with ⟨e, he, hme⟩
        rcases List.mem_filter.mp he with ⟨heM, hpred⟩
        have hlen : 2 ≤ e.2.occurrences.length := of_decide_eq_true hpred
        constructor
        · rw [← hme]
          show 2 ≤ ((entryToMatch e.2).occurrences).length
          unfold entryToMatch
          rw [List.length_map]
          exact hlen
        · rw [← hme]
          have hnd := buildLineMap_nodup files e heM
          show (((e.2.occurrences.map
            (fun o => (⟨o.1, o.2.take 10⟩ : FileOccurrence)))).map
            (fun o => o.filename)).Nodup
          rw [List.map_map]
          exact hnd
  · unfold findExactLineMatches
    by_cases h1 : files.length < 2
    · rw [if_pos h1]
      exact Or.inl rfl
    · rw [if_neg h1]
      by_cases h2 : (buildMatches (buildLineMap files)).length < 2
      · rw [if_pos h2]
        exact Or.inl rfl
      · rw [if_neg h2]
        right
        rw [List.length_take, sortMatches_length]
        omega

theorem findExactLineMatches_threshold_witness :
    (∀ m ∈ findExactLineMatches
      [⟨"2024-01-01T10:00:00Z shared error line one\nshared warning line two".data,
        "a.log".data⟩,
       ⟨"shared error line one\nshared warning line two".data, "b.log".data⟩],
      2 ≤ m.occurrences.length ∧
        (m.occurrences.map (fun o => o.filename)).Nodup) ∧
    (findExactLineMatches
      [⟨"2024-01-01T10:00:00Z shared error line one\nshared warning line two".data,
        "a.log".data⟩,
       ⟨"shared error line one\nshared warning line two".data, "b.log".data⟩] = [] ∨
     2 ≤ (findExactLineMatches
      [⟨"2024-01-01T10:00:00Z shared error line one\nshared warning line two".data,
        "a.log".data⟩,
       ⟨"shared error line one\nshared warning line two".data, "b.log".data⟩]).length) :=
  findExactLineMatches_threshold
    [⟨"2024-01-01T10:00:00Z shared error line one\nshared warning line two".data,
      "a.log".data⟩,
     ⟨"shared error line one\nshared warning line two".data, "b.log".data⟩]
    (by decide)
